import Mathlib

/-!
# stream-snatchet: manifest parsing and segment download

A shallow embedding of `internal/extractor/extractor.go`,
`internal/downloader/downloader.go`, `internal/merger/merger.go` and
`pkg/models/models.go`.

Conventions of the embedding:

* a Go `string` is a list of characters (`Str`), and the list of its bytes
  (`Bytes`) where the program measures or cuts it in bytes;
* a Go `int` is an `Int` (loop counters that only count upwards from zero
  are `Nat`), a `time.Duration` is an `Int` number of nanoseconds that wraps
  at 64 bits;
* a Go `float64` is an exact decimal number (`Float64`): additions are exact,
  the rounding of IEEE-754 arithmetic is not part of the model;
* a function that writes through a pointer returns the new value of the
  pointee together with its Go result;
* calls into the network, the file system, `strconv.ParseFloat`,
  `filepath.Join` and `url.Parse` are parameters of the functions that make
  them; the regular expressions of `findManifestURL` are read as the
  patterns they denote;
* the goroutines of the downloader are a transition system whose moves are
  taken in any order.
-/

namespace StreamSnatchet

/-- Go `string`. -/
abbrev Str := List Char

/-! ## Package `strings` -/

namespace strings

/-- Go `unicode.IsSpace`: the code points with the White_Space property. -/
def isSpace (c : Char) : Bool :=
  let n := c.toNat
  n == 0x09 || n == 0x0A || n == 0x0B || n == 0x0C || n == 0x0D || n == 0x20
    || n == 0x85 || n == 0xA0 || n == 0x1680 || (0x2000 ≤ n && n ≤ 0x200A)
    || n == 0x2028 || n == 0x2029 || n == 0x202F || n == 0x205F || n == 0x3000

/-- Go `strings.TrimSpace`: drops leading and trailing white space. -/
def TrimSpace (s : Str) : Str :=
  ((s.dropWhile isSpace).reverse.dropWhile isSpace).reverse

/-- Go `strings.HasPrefix`. -/
def HasPrefix (s pre : Str) : Bool :=
  pre.isPrefixOf s

/-- Go `strings.TrimPrefix`: `s` without the leading `pre`, or `s` itself. -/
def TrimPrefix (s pre : Str) : Str :=
  if HasPrefix s pre then s.drop pre.length else s

/-- Go `strings.Split(s, sep)` for a separator `sep` of one character, the
only kind the program uses. The result is never empty. -/
def Split : Str → Char → List Str
  | [], _ => [[]]
  | c :: cs, sep =>
    if c = sep then [] :: Split cs sep
    else
      match Split cs sep with
      | [] => [[c]]
      | piece :: rest => (c :: piece) :: rest

end strings

/-! ## Numbers -/

/-- A Go `float64` value, modelled as the exact decimal `mant * 10 ^ (-scale)`.
Values built with `Float64.norm` carry no trailing zero in `mant` unless
`scale = 0`, so that equal numbers are equal terms. -/
structure Float64 where
  mant : Int
  scale : Nat
deriving DecidableEq, Repr

namespace Float64

/-- Removes the trailing decimal zeros of `mant` that `scale` accounts for. -/
def norm : Int → Nat → Float64
  | m, 0 => ⟨m, 0⟩
  | m, s + 1 => if m % 10 = 0 then norm (m / 10) s else ⟨m, s + 1⟩

/-- The float64 value of an integer. -/
def ofInt (n : Int) : Float64 := ⟨n, 0⟩

/-- Exact sum of two values. -/
def add (a b : Float64) : Float64 :=
  let s := max a.scale b.scale
  norm (a.mant * 10 ^ (s - a.scale) + b.mant * 10 ^ (s - b.scale)) s

instance : Add Float64 := ⟨add⟩

/-- The integer part of a value, rounding towards zero. -/
def trunc (a : Float64) : Int :=
  Int.tdiv a.mant (10 ^ a.scale)

end Float64

/-- Wrap-around of an integer to the range of Go `int64`. -/
def wrap64 (x : Int) : Int :=
  (x + 2 ^ 63) % 2 ^ 64 - 2 ^ 63

/-- Go conversion `int64(f)` of a float64: the integer part when it is in
range; out of range the result is implementation-specific, here the
value amd64 produces. -/
def toInt64 (f : Float64) : Int :=
  let t := f.trunc
  if -(2 : Int) ^ 63 ≤ t ∧ t < 2 ^ 63 then t else -(2 : Int) ^ 63

/-! ## Package `time` -/

namespace time

/-- Go `time.Duration`: a signed 64-bit count of nanoseconds. -/
abbrev Duration := Int

/-- Go `time.Second`. -/
def Second : Duration := 1000000000

end time

/-! ## Package `strconv` -/

namespace strconv

/-- Value of a decimal digit character. -/
def digitVal (c : Char) : Option Nat :=
  if '0' ≤ c ∧ c ≤ '9' then some (c.toNat - '0'.toNat) else none

/-- Reads a non-empty run of decimal digits as a number. -/
def digitsVal : Str → Nat → Option Nat
  | [], _ => none
  | [c], acc => (digitVal c).map (fun d => acc * 10 + d)
  | c :: cs, acc => (digitVal c).bind (fun d => digitsVal cs (acc * 10 + d))

/-- A run of decimal digits, possibly empty, as a number. -/
def digitsVal0 (s : Str) : Option Nat :=
  if s = [] then some 0 else digitsVal s 0

/-- The unsigned part of a plain decimal literal: `digits`, `digits.digits`,
`digits.` or `.digits`. -/
def parseUnsigned (s : Str) : Option Float64 :=
  match strings.Split s '.' with
  | [whole] => (digitsVal whole 0).map (fun n => Float64.norm n 0)
  | [whole, frac] =>
    if whole = [] ∧ frac = [] then none
    else
      (digitsVal0 whole).bind (fun w =>
        (digitsVal0 frac).map (fun f =>
          Float64.norm ((w * 10 ^ frac.length + f : Nat) : Int) frac.length))
  | _ => none

/-- Go `strconv.ParseFloat(s, 64)` on plain decimal literals
(`[+-]digits[.digits]`), the only literals this model reads; `none` is a
parse error. Exponents, hexadecimal literals, `Inf` and `NaN` are outside the
model, and so is the rounding of literals with more than 17 digits. -/
def ParseFloat (s : Str) : Option Float64 :=
  match s with
  | '-' :: rest => (parseUnsigned rest).map (fun f => Float64.norm (-f.mant) f.scale)
  | '+' :: rest => parseUnsigned rest
  | _ => parseUnsigned s

end strconv

/-! ## Package `fmt` -/

namespace fmt

/-- The decimal digit character of a number below ten. -/
def digitChar (d : Nat) : Char :=
  Char.ofNat ('0'.toNat + d % 10)

/-- Decimal digits of `n`, most significant first, prepended to `acc`;
`fuel` bounds the number of digits produced. -/
def decimalAux : Nat → Nat → Str → Str
  | 0, _, acc => acc
  | fuel + 1, n, acc =>
    if n < 10 then digitChar n :: acc
    else decimalAux fuel (n / 10) (digitChar n :: acc)

/-- Go verb `%d` on a non-negative integer. -/
def decimal (n : Nat) : Str :=
  decimalAux (n + 1) n []

/-- Go verb `%04d` on a non-negative integer: the decimal digits, padded
with zeros on the left to at least four characters. -/
def decimal04 (n : Nat) : Str :=
  let ds := decimal n
  List.replicate (4 - ds.length) '0' ++ ds

end fmt

/-! ## Errors -/

/-- The Go `error` values the program builds. An error coming out of a library
call (network, file system) is a `text`. -/
inductive Error where
  /-- an error produced by a library call, with its message -/
  | text (msg : Str)
  /-- extractor: `"no segments found in manifest"` -/
  | noSegments
  /-- downloader: `"failed after %d attempts: %w"`; `lastErr` is `none` for a
  nil error -/
  | failedAfterAttempts (attempts : Int) (lastErr : Option Str)
  /-- downloader: `"failed to download %d out of %d segments"` -/
  | failedToDownload (failed total : Int)
  /-- downloader: `"failed to create output directory: %w"` -/
  | createOutputDir (cause : Str)
deriving DecidableEq, Repr

/-! ## Package `models` -/

namespace models

/-- Go `models.Segment`. -/
structure Segment where
  URL : Str
  Index : Int
  Duration : Float64
  Filename : Str
deriving DecidableEq, Repr

/-- Go `models.StreamInfo`; `Headers` is the map as a list of pairs. -/
structure StreamInfo where
  IframeURL : Str
  ManifestURL : Str
  BaseURL : Str
  Title : Str
  Duration : time.Duration
  Quality : Str
  Segments : List Segment
  Headers : List (Str × Str)
deriving DecidableEq, Repr

/-- Go `models.DownloadProgress`, without its mutex. -/
structure DownloadProgress where
  TotalSegments : Int
  CompletedSegments : Int
  CurrentSegment : Int
  Speed : Str
  ETA : time.Duration
  Status : Str
deriving DecidableEq, Repr

/-- Go `(*DownloadProgress).Update`. -/
def DownloadProgress.Update (dp : DownloadProgress) (completed current : Int)
    (status : Str) : DownloadProgress :=
  { dp with CompletedSegments := completed, CurrentSegment := current, Status := status }

/-- Go `(*DownloadProgress).GetProgress`. -/
def DownloadProgress.GetProgress (dp : DownloadProgress) : Int × Int × Str :=
  (dp.CompletedSegments, dp.TotalSegments, dp.Status)

/-- Go `models.Config`. -/
structure Config where
  OutputDir : Str
  Quality : Str
  MaxConcurrency : Int
  RetryAttempts : Int
  TimeoutSeconds : Int
  UserAgent : Str
  EnableGUI : Bool
  Verbose : Bool
deriving DecidableEq, Repr

end models

/-! ## Package `extractor` -/

namespace extractor

open models

/-- The local variables of the loop of `parseManifest`. -/
structure ParseState where
  segments : List Segment
  currentDuration : Float64
  segmentIndex : Nat
deriving DecidableEq, Repr

/-- The prefix of a duration declaration. -/
def extinf : Str := "#EXTINF:".toList

/-- The prefix of a comment line. -/
def hashMark : Str := "#".toList

/-- The prefix by which the program recognises an absolute URL. -/
def httpMark : Str := "http".toList

/-- The duration a `#EXTINF:` line (already trimmed) sets: the parsed text
between the prefix and the first comma, or 10.0 when it does not parse. -/
def declaredDuration (ParseFloat : Str → Option Float64) (line : Str) : Float64 :=
  let durationStr := strings.TrimPrefix line extinf
  let durationStr := (strings.Split durationStr ',').headD []
  match ParseFloat durationStr with
  | none => Float64.ofInt 10
  | some duration => duration

/-- The URL of the segment a content line (already trimmed) names. -/
def segmentURL (BaseURL line : Str) : Str :=
  if !strings.HasPrefix line httpMark then BaseURL ++ line else line

/-- The segment a content line (already trimmed) produces. -/
def mkSegment (BaseURL line : Str) (currentDuration : Float64) (segmentIndex : Nat) :
    Segment :=
  { URL := segmentURL BaseURL line
    Index := (segmentIndex : Int)
    Duration := currentDuration
    Filename := "segment_".toList ++ fmt.decimal04 segmentIndex ++ ".ts".toList }

/-- One iteration of the loop of `parseManifest` over a line of the manifest. -/
def parseLine (ParseFloat : Str → Option Float64) (BaseURL : Str) (st : ParseState)
    (line : Str) : ParseState :=
  let line := strings.TrimSpace line
  if strings.HasPrefix line extinf then
    { st with currentDuration := declaredDuration ParseFloat line }
  else if line ≠ [] ∧ !strings.HasPrefix line hashMark then
    { st with
      segments := st.segments ++ [mkSegment BaseURL line st.currentDuration st.segmentIndex]
      segmentIndex := st.segmentIndex + 1 }
  else st

/-- The state of the loop of `parseManifest` after all the lines. -/
def parseLines (ParseFloat : Str → Option Float64) (BaseURL : Str) (lines : List Str) :
    ParseState :=
  lines.foldl (parseLine ParseFloat BaseURL) ⟨[], Float64.ofInt 0, 0⟩

/-- The sum the second loop of `parseManifest` computes. -/
def totalDuration (segments : List Segment) : Float64 :=
  segments.foldl (fun total segment => total + segment.Duration) (Float64.ofInt 0)

/-- Go `(*Extractor).parseManifest`: the new value of `*streamInfo` and the
returned error (`none` is nil). -/
def parseManifest (ParseFloat : Str → Option Float64) (content : Str)
    (streamInfo : StreamInfo) : StreamInfo × Option Error :=
  let lines := strings.Split content '\n'
  let segments := (parseLines ParseFloat streamInfo.BaseURL lines).segments
  if segments.length = 0 then (streamInfo, some Error.noSegments)
  else
    ({ streamInfo with
        Segments := segments
        Duration := wrap64 (toInt64 (totalDuration segments) * time.Second) },
      none)

/-- A line of the manifest is a duration declaration when, trimmed, it starts
with `#EXTINF:`. -/
def isExtinfLine (line : Str) : Bool :=
  strings.HasPrefix (strings.TrimSpace line) extinf

/-- A line of the manifest is a content line when, trimmed, it is non-empty
and does not start with `#`. -/
def isContentLine (line : Str) : Bool :=
  decide (strings.TrimSpace line ≠ []) && !strings.HasPrefix (strings.TrimSpace line) hashMark

/-- The content lines of a manifest, trimmed, in file order. -/
def contentLines (content : Str) : List Str :=
  ((strings.Split content '\n').filter isContentLine).map strings.TrimSpace

/-- A stream whose base URL is `https://h/video/` and nothing else. -/
def sampleStream : StreamInfo :=
  { IframeURL := [], ManifestURL := [], BaseURL := "https://h/video/".toList, Title := [],
    Duration := 0, Quality := [], Segments := [], Headers := [] }

end extractor

/-! ## Package `downloader` -/

namespace downloader

open models

/-- Go `downloader.Downloader`, without its HTTP client. -/
structure Downloader where
  config : Config
  progress : DownloadProgress
deriving DecidableEq, Repr

/-- Go `downloader.SegmentResult`; `Error = none` is a nil error. -/
structure SegmentResult where
  Index : Int
  Filename : Str
  Error : Option Error
deriving DecidableEq, Repr

/-- What one call of `downloadSegmentWithRetry` did: the number of calls of
`downloadSegment` it made, the sleeps it took in order, and the error it
returned (`none` is nil). -/
structure RetryRun where
  calls : Nat
  sleeps : List time.Duration
  err : Option Error
deriving DecidableEq, Repr

/-- The loop `for attempt := 0; attempt < RetryAttempts; attempt++` of
`downloadSegmentWithRetry`, entered with `remaining` iterations left, that is
`remaining = RetryAttempts - attempt` when that is positive and 0 otherwise.
`downloadSegment n` is the result of the call of `downloadSegment` made in
iteration `n` (`none` is nil). -/
def retryLoop (RetryAttempts : Int) (downloadSegment : Nat → Option Str) :
    Nat → Nat → Option Str → List time.Duration → RetryRun
  | 0, attempt, lastErr, sleeps =>
    { calls := attempt, sleeps := sleeps
      err := some (Error.failedAfterAttempts RetryAttempts lastErr) }
  | remaining + 1, attempt, _, sleeps =>
    let sleeps := if attempt > 0 then sleeps ++ [wrap64 (attempt * time.Second)] else sleeps
    match downloadSegment attempt with
    | some err => retryLoop RetryAttempts downloadSegment remaining (attempt + 1) (some err) sleeps
    | none => { calls := attempt + 1, sleeps := sleeps, err := none }

/-- Go `(*Downloader).downloadSegmentWithRetry`. -/
def downloadSegmentWithRetry (RetryAttempts : Int) (downloadSegment : Nat → Option Str) :
    RetryRun :=
  retryLoop RetryAttempts downloadSegment RetryAttempts.toNat 0 none []

/-- The result the goroutine of one segment sends on the `results` channel. -/
def worker (config : Config) (downloadSegment : Nat → Option Str) (seg : Segment) :
    SegmentResult :=
  { Index := seg.Index
    Filename := seg.Filename
    Error := (downloadSegmentWithRetry config.RetryAttempts downloadSegment).err }

/-- The results of the goroutines started for the segments, in launch order;
`net p n` is the result of the `n`-th call of `downloadSegment` for the
segment at position `p` of the list. -/
def goroutines (config : Config) (net : Nat → Nat → Option Str) :
    List Segment → Nat → List SegmentResult
  | [], _ => []
  | seg :: rest, p => worker config (net p) seg :: goroutines config net rest (p + 1)

/-- The local variables of the collecting loop of `DownloadSegments`, the
progress record it updates, and the record after each `Update` so far. -/
structure Collector where
  completed : Int
  failed : Int
  segmentFiles : List Str
  progress : DownloadProgress
  updates : List DownloadProgress
deriving DecidableEq, Repr

/-- The assignment `segmentFiles[index] = filename`; `none` is the run-time
panic of an index out of range. -/
def setFile (segmentFiles : List Str) (index : Int) (filename : Str) : Option (List Str) :=
  if 0 ≤ index ∧ index < segmentFiles.length then
    some (segmentFiles.set index.toNat filename)
  else none

/-- One iteration of the collecting loop, on the `k`-th result received.
`clock k` is the time elapsed since the start when it is received and
`statusText` formats the status line from the counts and that time; `none`
is a run-time panic. -/
def collectStep (total : Int) (clock : Nat → time.Duration)
    (statusText : Int → Int → time.Duration → Str) (st : Collector) (k : Nat)
    (result : SegmentResult) : Option Collector :=
  let counted : Option (Int × Int × List Str) :=
    if result.Error ≠ none then some (st.completed, st.failed + 1, st.segmentFiles)
    else
      (setFile st.segmentFiles result.Index result.Filename).map
        (fun files => (st.completed + 1, st.failed, files))
  counted.map (fun (completed, failed, files) =>
    let status := statusText completed total (clock k)
    let progress := st.progress.Update completed (completed + failed) status
    { completed := completed, failed := failed, segmentFiles := files
      progress := progress, updates := st.updates ++ [progress] })

/-- The loop `for result := range results` over the results in the order they
arrive. The second component is `true` when the loop ended in a panic; the
state is then the one before the failing iteration. -/
def collect (total : Int) (clock : Nat → time.Duration)
    (statusText : Int → Int → time.Duration → Str) :
    List SegmentResult → Nat → Collector → Collector × Bool
  | [], _, st => (st, false)
  | result :: rest, k, st =>
    match collectStep total clock statusText st k result with
    | none => (st, true)
    | some st' => collect total clock statusText rest (k + 1) st'

/-- The loop that rebuilds `streamInfo.Segments` from `segmentFiles`. -/
def rewriteSegments : List Str → Nat → List Segment → List Segment
  | [], _, segments => segments
  | filename :: rest, i, segments =>
    rewriteSegments rest (i + 1)
      (if filename ≠ [] then
        segments ++ [{ URL := [], Index := (i : Int), Duration := Float64.ofInt 0,
                       Filename := filename }]
      else segments)

/-- How a call of `DownloadSegments` ends. -/
inductive Exit where
  /-- it returns this error (`none` is nil) -/
  | returned (err : Option Error)
  /-- it panics -/
  | panicked
  /-- it blocks for ever -/
  | blocked
deriving DecidableEq, Repr

/-- A call of `DownloadSegments`: how it ends, the values of `*streamInfo` and
of the downloader at that point, and the progress record after each `Update`. -/
structure Run where
  exit : Exit
  streamInfo : StreamInfo
  d : Downloader
  updates : List DownloadProgress
deriving DecidableEq, Repr

/-- The progress record `DownloadSegments` starts from. -/
def initialProgress (total : Int) : DownloadProgress :=
  { TotalSegments := total, CompletedSegments := 0, CurrentSegment := 0, Speed := [],
    ETA := 0, Status := "Initializing download...".toList }

/-- Go `(*Downloader).DownloadSegments`.

The environment is given by: `mkdirAll`, the result of `os.MkdirAll` (`none`
is nil); `net`, the results of the calls of `downloadSegment` (see
`goroutines`); `schedule`, which turns the results in launch order into the
order in which they arrive on the channel; `clock` and `statusText` (see
`collectStep`). Console output is not part of the model.

The semaphore has capacity `MaxConcurrency`: making it panics when that is
negative, and with capacity 0 no goroutine ever gets past its send, so the
call blocks as soon as there is a segment. -/
def DownloadSegments (d : Downloader) (mkdirAll : Option Str) (net : Nat → Nat → Option Str)
    (schedule : List SegmentResult → List SegmentResult) (clock : Nat → time.Duration)
    (statusText : Int → Int → time.Duration → Str) (streamInfo : StreamInfo) : Run :=
  match mkdirAll with
  | some cause =>
    { exit := Exit.returned (some (Error.createOutputDir cause)), streamInfo := streamInfo
      d := d, updates := [] }
  | none =>
    let total : Int := streamInfo.Segments.length
    let d := { d with progress := initialProgress total }
    if d.config.MaxConcurrency < 0 then
      { exit := Exit.panicked, streamInfo := streamInfo, d := d, updates := [] }
    else if d.config.MaxConcurrency = 0 ∧ streamInfo.Segments ≠ [] then
      { exit := Exit.blocked, streamInfo := streamInfo, d := d, updates := [] }
    else
      let arrived := schedule (goroutines d.config net streamInfo.Segments 0)
      let start : Collector :=
        { completed := 0, failed := 0
          segmentFiles := List.replicate streamInfo.Segments.length []
          progress := d.progress, updates := [] }
      let st := (collect total clock statusText arrived 0 start).1
      if (collect total clock statusText arrived 0 start).2 = true then
        { exit := Exit.panicked, streamInfo := streamInfo
          d := { d with progress := st.progress }, updates := st.updates }
      else if st.failed > 0 then
        { exit := Exit.returned (some (Error.failedToDownload st.failed total))
          streamInfo := streamInfo
          d := { d with progress := st.progress }, updates := st.updates }
      else
        { exit := Exit.returned none
          streamInfo := { streamInfo with Segments := rewriteSegments st.segmentFiles 0 [] }
          d := { d with progress := st.progress }, updates := st.updates }

/-- Go `(*Downloader).GetProgress`. -/
def Downloader.GetProgress (d : Downloader) : DownloadProgress :=
  d.progress

/-! ### Definitions used to state the properties of the downloader -/

/-- What one iteration of the collecting loop keeps true. -/
structure StepFacts (st st' : Collector) (r : SegmentResult) : Prop where
  completed : st'.completed = st.completed + (if r.Error = none then 1 else 0)
  failed : st'.failed = st.failed + (if r.Error = none then 0 else 1)
  files : st'.segmentFiles =
    if r.Error = none then st.segmentFiles.set r.Index.toNat r.Filename else st.segmentFiles
  total : st'.progress.TotalSegments = st.progress.TotalSegments
  progress : st'.progress.CompletedSegments = st'.completed ∧
    st'.progress.CurrentSegment = st'.completed + st'.failed
  updates : st'.updates = st.updates ++ [st'.progress]
  inRange : r.Error = none → 0 ≤ r.Index ∧ r.Index < st.segmentFiles.length

/-- The progress counts of `b` are not below those of `a`. -/
def ProgressLe (a b : DownloadProgress) : Prop :=
  a.CompletedSegments ≤ b.CompletedSegments ∧ a.CurrentSegment ≤ b.CurrentSegment

/-- The invariant of the collecting loop for a run over `N` segments. -/
structure CollectInv (N : Int) (st : Collector) : Prop where
  completed_nonneg : 0 ≤ st.completed
  failed_nonneg : 0 ≤ st.failed
  total : st.progress.TotalSegments = N
  bounded : ∀ u ∈ st.updates, u.TotalSegments = N ∧ 0 ≤ u.CompletedSegments ∧
    u.CompletedSegments ≤ u.CurrentSegment ∧ u.CompletedSegments ≤ st.completed ∧
    u.CurrentSegment ≤ st.completed + st.failed
  monotone : st.updates.Pairwise ProgressLe

/-- The writes `segmentFiles[result.Index] = result.Filename` of the successful
results, in order. -/
def storeFiles (files : List Str) (results : List SegmentResult) : List Str :=
  results.foldl
    (fun fs r => if r.Error = none then fs.set r.Index.toNat r.Filename else fs) files

/-- A downloader with the default configuration. -/
def sampleDownloader : Downloader :=
  { config :=
      { OutputDir := "./downloads".toList, Quality := "best".toList, MaxConcurrency := 5
        RetryAttempts := 3, TimeoutSeconds := 30, UserAgent := "Mozilla/5.0".toList
        EnableGUI := false, Verbose := false }
    progress := initialProgress 0 }

/-- A segment with the given index and file name. -/
def sampleSegment (index : Int) (filename : Str) : Segment :=
  { URL := "https://h/video/".toList ++ filename, Index := index
    Duration := Float64.ofInt 10, Filename := filename }

/-- A stream of three segments with indices 0, 1, 2. -/
def sampleDownload : StreamInfo :=
  { extractor.sampleStream with
    Segments := [sampleSegment 0 "segment_0000.ts".toList,
      sampleSegment 1 "segment_0001.ts".toList, sampleSegment 2 "segment_0002.ts".toList] }

/-- A stream of two segments whose first index is out of range. -/
def sampleBadDownload : StreamInfo :=
  { extractor.sampleStream with
    Segments := [sampleSegment 5 "a.ts".toList, sampleSegment 0 "b.ts".toList] }

/-- A network on which every call for the segment at position 1 fails and
every other call succeeds. -/
def sampleNet (p : Nat) (_ : Nat) : Option Str :=
  if p = 1 then some "HTTP error: 404".toList else none

/-- The state the collecting loop of a run starts from. -/
def startCollector (si : StreamInfo) : Collector :=
  { completed := 0, failed := 0, segmentFiles := List.replicate si.Segments.length []
    progress := initialProgress (si.Segments.length : Int), updates := [] }

/-- The state the collecting loop of a run ends in. -/
def finalCollector (d : Downloader) (net : Nat → Nat → Option Str)
    (schedule : List SegmentResult → List SegmentResult) (clock : Nat → time.Duration)
    (statusText : Int → Int → time.Duration → Str) (si : StreamInfo) : Collector :=
  (collect (si.Segments.length : Int) clock statusText
    (schedule (goroutines d.config net si.Segments 0)) 0 (startCollector si)).1

/-- The segment the rebuilding loop makes for position `n` and file name `f`. -/
def rebuilt (n : Nat) (f : Str) : Segment :=
  { URL := [], Index := (n : Int), Duration := Float64.ofInt 0, Filename := f }

end downloader

namespace extractor

/-- The local file name `parseManifest` gives the segment with index `i`:
`fmt.Sprintf("segment_%04d.ts", i)`. -/
def segmentFilename (i : Nat) : Str :=
  "segment_".toList ++ fmt.decimal04 i ++ ".ts".toList

end extractor

namespace fmt

/-- The number a string of decimal digits denotes, read on top of `acc`. -/
def digitsValue (s : Str) (acc : Nat) : Nat :=
  s.foldl (fun a c => a * 10 + (c.toNat - '0'.toNat)) acc

end fmt

namespace downloader

/-! ### The goroutines of `DownloadSegments` as a transition system

Each segment has a goroutine that sends on the semaphore channel, fetches the
segment, sends its result, and on return receives from the semaphore channel
(the deferred function). The goroutines run in any interleaving. A send on
the semaphore channel, of capacity `MaxConcurrency`, goes through only while
the channel holds fewer elements than its capacity; the results channel has
room for every result, so the send of a result goes through at once. -/

/-- Where the goroutine of a segment stands. -/
inductive Phase where
  /-- before `semaphore <- struct{}{}` -/
  | queued
  /-- past the send on the semaphore, inside `downloadSegmentWithRetry` -/
  | fetching
  /-- past `results <- result`, before the deferred `<-semaphore` -/
  | sent
  /-- returned -/
  | finished
deriving DecidableEq, Repr

/-- The goroutines and the semaphore channel at one moment. -/
structure Pool where
  phases : List Phase
  semaphore : Nat
deriving DecidableEq, Repr

/-- The moment all goroutines have been started and none has moved. -/
def Pool.start (segments : Nat) : Pool :=
  { phases := List.replicate segments Phase.queued, semaphore := 0 }

/-- The next move of goroutine `i`; `none` when it is blocked on the semaphore
or has returned. -/
def Pool.step (MaxConcurrency : Int) (s : Pool) (i : Nat) : Option Pool :=
  match s.phases[i]? with
  | some Phase.queued =>
    if (s.semaphore : Int) < MaxConcurrency then
      some { phases := s.phases.set i Phase.fetching, semaphore := s.semaphore + 1 }
    else none
  | some Phase.fetching => some { s with phases := s.phases.set i Phase.sent }
  | some Phase.sent =>
    some { phases := s.phases.set i Phase.finished, semaphore := s.semaphore - 1 }
  | _ => none

/-- The moment reached from `s` when the goroutines named in `schedule` are
given the processor in that order; a goroutine that cannot move leaves the
state as it is. -/
def Pool.run (MaxConcurrency : Int) : List Nat → Pool → Pool
  | [], s => s
  | i :: rest, s => Pool.run MaxConcurrency rest ((s.step MaxConcurrency i).getD s)

/-- The number of goroutines inside `downloadSegmentWithRetry`. -/
def Pool.fetching (s : Pool) : Nat :=
  s.phases.countP (fun p => decide (p = Phase.fetching))

/-- The number of goroutines that hold a slot of the semaphore. -/
def Pool.holding (s : Pool) : Nat :=
  s.phases.countP (fun p => decide (p = Phase.fetching ∨ p = Phase.sent))

end downloader

/-! ## Strings as bytes

`GenerateOutputFilename` measures and cuts its string in bytes, so there a Go
`string` is the list of its bytes (`Bytes`), and a text is turned into bytes
by its UTF-8 encoding. -/

/-- A Go `string` as its bytes, each a number below 256. -/
abbrev Bytes := List Nat

namespace utf8

/-- Go `utf8.AppendRune`: the UTF-8 encoding of a code point. -/
def encodeRune (c : Char) : Bytes :=
  let n := c.toNat
  if n < 0x80 then [n]
  else if n < 0x800 then [0xC0 + n / 0x40, 0x80 + n % 0x40]
  else if n < 0x10000 then [0xE0 + n / 0x1000, 0x80 + n / 0x40 % 0x40, 0x80 + n % 0x40]
  else [0xF0 + n / 0x40000, 0x80 + n / 0x1000 % 0x40, 0x80 + n / 0x40 % 0x40, 0x80 + n % 0x40]

/-- The bytes of the Go `string` that holds a text. -/
def encode (s : Str) : Bytes :=
  s.flatMap encodeRune

/-- A continuation byte. -/
def isCont (b : Nat) : Bool :=
  0x80 ≤ b && b ≤ 0xBF

/-- The number of bytes Go's decoder takes for the first rune of a non-empty
string (`first` and `acceptRanges` of package `utf8`): the length of a
well-formed encoding, and 1 for a byte that starts none. -/
def runeWidth : Bytes → Nat
  | [] => 0
  | c :: rest =>
    if c < 0x80 then 1
    else if c < 0xC2 then 1
    else if c ≤ 0xDF then
      match rest with
      | c1 :: _ => if isCont c1 then 2 else 1
      | _ => 1
    else if c ≤ 0xEF then
      match rest with
      | c1 :: c2 :: _ =>
        let lo := if c = 0xE0 then 0xA0 else 0x80
        let hi := if c = 0xED then 0x9F else 0xBF
        if lo ≤ c1 ∧ c1 ≤ hi ∧ isCont c2 then 3 else 1
      | _ => 1
    else if c ≤ 0xF4 then
      match rest with
      | c1 :: c2 :: c3 :: _ =>
        let lo := if c = 0xF0 then 0x90 else 0x80
        let hi := if c = 0xF4 then 0x8F else 0xBF
        if lo ≤ c1 ∧ c1 ≤ hi ∧ isCont c2 ∧ isCont c3 then 4 else 1
      | _ => 1
    else 1

/-- The loop of `RuneCountInString`; `fuel` bounds the number of runes. -/
def runeCountAux : Nat → Bytes → Nat
  | 0, _ => 0
  | _, [] => 0
  | fuel + 1, c :: rest => 1 + runeCountAux fuel ((c :: rest).drop (runeWidth (c :: rest)))

/-- Go `utf8.RuneCountInString`: the number of runes of a string, a byte that
is not part of a well-formed encoding counting as one rune. -/
def RuneCountInString (s : Bytes) : Nat :=
  runeCountAux s.length s

end utf8

namespace strings

/-- Go `strings.ReplaceAll(s, old, new)` for an `old` of one element (one
byte, or one character). -/
def ReplaceAll {α : Type} [DecidableEq α] (s : List α) (old : α) (new : List α) : List α :=
  s.flatMap (fun c => if c = old then new else [c])

end strings

/-! ## Package `filepath` -/

namespace filepath

/-- The elements of a cleaned path, from the elements of the path: empty
elements and `.` go, `..` removes the element before it, stays in front of a
relative path and goes at the root. `out` holds the elements kept so far,
last first. -/
def cleanElems {α : Type} [DecidableEq α] (dot : α) (rooted : Bool) :
    List (List α) → List (List α) → List (List α)
  | [], out => out.reverse
  | e :: rest, out =>
    if e = [] ∨ e = [dot] then cleanElems dot rooted rest out
    else if e = [dot, dot] then
      match out with
      | top :: below =>
        if top = [dot, dot] then cleanElems dot rooted rest (e :: out)
        else cleanElems dot rooted rest below
      | [] => if rooted then cleanElems dot rooted rest [] else cleanElems dot rooted rest [e]
    else cleanElems dot rooted rest (e :: out)

/-- The pieces of a list between the occurrences of `sep`. -/
def splitOn {α : Type} [DecidableEq α] (sep : α) : List α → List (List α)
  | [] => [[]]
  | c :: cs =>
    if c = sep then [] :: splitOn sep cs
    else
      match splitOn sep cs with
      | [] => [[c]]
      | piece :: rest => (c :: piece) :: rest

/-- Go `filepath.Clean` on Unix, for paths with separator `sep` and dot `dot`. -/
def Clean {α : Type} [DecidableEq α] (sep dot : α) (path : List α) : List α :=
  if path = [] then [dot]
  else
    let rooted := path.head? = some sep
    let elems := cleanElems dot rooted (splitOn sep path) []
    if rooted then sep :: List.intercalate [sep] elems
    else if elems = [] then [dot]
    else List.intercalate [sep] elems

/-- Go `filepath.Join` of two elements on Unix. -/
def Join {α : Type} [DecidableEq α] (sep dot : α) (a b : List α) : List α :=
  if a ≠ [] then Clean sep dot (a ++ sep :: b)
  else if b ≠ [] then Clean sep dot b
  else []

/-- Go `filepath.Join` of two elements on Unix, on texts. -/
def JoinStr (a b : Str) : Str :=
  Join '/' '.' a b

/-- Go `filepath.Join` of two elements on Unix, on bytes. -/
def JoinBytes (a b : Bytes) : Bytes :=
  Join '/'.toNat '.'.toNat a b

end filepath

/-! ## Package `merger` -/

namespace merger

open models

/-- The byte `_` that takes the place of an unsafe byte. -/
def underscore : Nat := '_'.toNat

/-- The bytes `GenerateOutputFilename` replaces: space and `/ \ : * ? " < > |`. -/
def unsafeBytes : List Nat :=
  [' '.toNat, '/'.toNat, '\\'.toNat, ':'.toNat, '*'.toNat, '?'.toNat, '"'.toNat, '<'.toNat,
    '>'.toNat, '|'.toNat]

/-- The value of the variable `title` of `GenerateOutputFilename` just before
the `return`. -/
def outputTitle (streamInfo : StreamInfo) : Bytes :=
  let title := utf8.encode streamInfo.Title
  let title := if title = [] then utf8.encode "video".toList else title
  let title := strings.ReplaceAll title ' '.toNat [underscore]
  let title := strings.ReplaceAll title '/'.toNat [underscore]
  let title := strings.ReplaceAll title '\\'.toNat [underscore]
  let title := strings.ReplaceAll title ':'.toNat [underscore]
  let title := strings.ReplaceAll title '*'.toNat [underscore]
  let title := strings.ReplaceAll title '?'.toNat [underscore]
  let title := strings.ReplaceAll title '"'.toNat [underscore]
  let title := strings.ReplaceAll title '<'.toNat [underscore]
  let title := strings.ReplaceAll title '>'.toNat [underscore]
  let title := strings.ReplaceAll title '|'.toNat [underscore]
  if title.length > 100 then title.take 100 else title

/-- Go `(*Merger).GenerateOutputFilename`; `Join` is `filepath.Join`. -/
def GenerateOutputFilename (Join : Bytes → Bytes → Bytes) (streamInfo : StreamInfo)
    (outputDir : Bytes) : Bytes :=
  Join outputDir (outputTitle streamInfo ++ utf8.encode ".mp4".toList)

/-- What a call of `createSegmentsList` did: the texts it passed to
`WriteString` without error, in order; the content of the list file at the
return when that is known (every write and the final `Flush` went through);
and the error it returned (`none` is nil). -/
structure ListRun where
  written : List Str
  file : Option Str
  err : Option Error
deriving DecidableEq, Repr

/-- The apostrophe. -/
def apostrophe : Char := Char.ofNat 39

/-- The line `createSegmentsList` writes for a path:
`fmt.Sprintf("file '%s'\n", strings.ReplaceAll(absPath, "'", "'\\''"))`. -/
def listLine (absPath : Str) : Str :=
  "file ".toList ++ apostrophe ::
    (strings.ReplaceAll absPath apostrophe [apostrophe, '\\', apostrophe, apostrophe] ++
      [apostrophe, '\n'])

/-- The loop of `createSegmentsList` over the segments. `stat p` tells whether
`os.Stat(p)` returns no error, `abs p` is the result of `filepath.Abs(p)`
(`none` is an error), `write k` is the error of the `k`-th call of `WriteString`
(`none` is nil). Console output is not part of the model. -/
def listLoop (Join : Str → Str → Str) (stat : Str → Bool) (abs : Str → Option Str)
    (write : Nat → Option Str) (segmentsDir : Str) :
    List Segment → List Str → List Str × Option Error
  | [], written => (written, none)
  | segment :: rest, written =>
    let segmentPath := Join segmentsDir segment.Filename
    if !stat segmentPath then listLoop Join stat abs write segmentsDir rest written
    else
      let absPath :=
        match abs segmentPath with
        | none => segmentPath
        | some p => p
      match write written.length with
      | some err => (written, some (Error.text err))
      | none =>
        listLoop Join stat abs write segmentsDir rest (written ++ [listLine absPath])

/-- Go `(*Merger).createSegmentsList`. `create p` is the error of
`os.Create(p)` (`none` is nil) and `flush` tells whether the deferred
`writer.Flush()` succeeds; its error is dropped. -/
def createSegmentsList (Join : Str → Str → Str) (create : Str → Option Str)
    (stat : Str → Bool) (abs : Str → Option Str) (write : Nat → Option Str) (flush : Bool)
    (segments : List Segment) (segmentsDir listFile : Str) : ListRun :=
  match create listFile with
  | some err => { written := [], file := none, err := some (Error.text err) }
  | none =>
    let r := listLoop Join stat abs write segmentsDir segments []
    { written := r.1
      file := if r.2 = none ∧ flush = true then some r.1.flatten else none
      err := r.2 }

end merger

namespace merger

open models

/-- The effect of `strings.ReplaceAll(title, old, "_")` on one byte. -/
def replaceByte (old b : Nat) : Nat :=
  if b = old then underscore else b

/-- The byte that takes the place of `b` in the output title: `_` for an
unsafe byte, `b` itself otherwise. -/
def sanitize (b : Nat) : Nat :=
  if b ∈ unsafeBytes then underscore else b

/-- The title `GenerateOutputFilename` starts from: the bytes of the title, or
of `video` when the title is empty. -/
def titleOrVideo (streamInfo : StreamInfo) : Bytes :=
  if streamInfo.Title = [] then utf8.encode "video".toList else utf8.encode streamInfo.Title

/-- A stream whose title is 51 times the letter `é`: 51 characters, 102 bytes. -/
def sampleAccented : StreamInfo :=
  { extractor.sampleStream with Title := List.replicate 51 'é' }

/-- A segment with a file name and nothing else. -/
def sampleFile (index : Int) (filename : Str) : Segment :=
  { URL := [], Index := index, Duration := Float64.ofInt 0, Filename := filename }

end merger

/-! ## Package `regexp`, for the patterns of `findManifestURL` -/

namespace strings

/-- Go `strings.Contains`. -/
def Contains : Str → Str → Bool
  | [], sub => sub.isPrefixOf []
  | c :: cs, sub => sub.isPrefixOf (c :: cs) || Contains cs sub

end strings

namespace regexp

/-- The character class `['"]`. -/
def isQuote (c : Char) : Bool :=
  c = Char.ofNat 39 || c = '"'

/-- The character class `\s`: tab, line feed, form feed, carriage return and
space. -/
def isBlank (c : Char) : Bool :=
  c = '\t' || c = '\n' || c = Char.ofNat 12 || c = '\r' || c = ' '

/-- The literal `https://`. -/
def httpsScheme : Str := "https://".toList

/-- The literal `http://`. -/
def httpScheme : Str := "http://".toList

/-- A regular expression of the form
`keyword\s*['"](https?://[^'"]*marker[^'"]*?)['"]`, or, without a keyword,
`['"](https?://[^'"]*marker[^'"]*?)['"]`; `marker` is a literal text without
quote characters. -/
structure Pattern where
  keyword : Option Str
  marker : Str
deriving DecidableEq, Repr

/-- The text the group `(https?://[^'"]*marker[^'"]*?)` captures when the
expression `(https?://[^'"]*marker[^'"]*?)['"]` matches at the start of `s`.
All of the group matches characters other than quotes and a quote follows it,
so the group is the text up to the first quote of `s`; it starts with
`https://` or `http://`, and what follows that contains the marker. -/
def matchGroup (marker : Str) (s : Str) : Option Str :=
  let body := s.takeWhile (fun c => !isQuote c)
  if s.dropWhile (fun c => !isQuote c) = [] then none
  else
    let tail : Option Str :=
      if strings.HasPrefix body httpsScheme then some (body.drop httpsScheme.length)
      else if strings.HasPrefix body httpScheme then some (body.drop httpScheme.length)
      else none
    match tail with
    | some rest => if strings.Contains rest marker then some body else none
    | none => none

/-- The text the group captures when the pattern matches at the start of `s`;
`none` when it does not match there. -/
def matchHere (p : Pattern) (s : Str) : Option Str :=
  let afterKeyword : Option Str :=
    match p.keyword with
    | none => some s
    | some k =>
      if strings.HasPrefix s k then some ((s.drop k.length).dropWhile isBlank) else none
  match afterKeyword with
  | some (q :: rest) => if isQuote q then matchGroup p.marker rest else none
  | _ => none

/-- Go `(*Regexp).FindStringSubmatch` for a pattern of this form, reduced to
the text of its one group: the group of the leftmost match, or `none` when the
pattern matches nowhere (Go returns nil). -/
def FindStringSubmatch (p : Pattern) : Str → Option Str
  | [] => matchHere p []
  | c :: cs =>
    match matchHere p (c :: cs) with
    | some group => some group
    | none => FindStringSubmatch p cs

end regexp

namespace extractor

/-- The marker `\.m3u8`. -/
def dotM3u8 : Str := ".m3u8".toList

/-- The marker `m3u8`. -/
def m3u8 : Str := "m3u8".toList

/-- The patterns of `findManifestURL`, in its order. -/
def patterns : List regexp.Pattern :=
  [ { keyword := none, marker := dotM3u8 },
    { keyword := none, marker := m3u8 },
    { keyword := some "source:".toList, marker := dotM3u8 },
    { keyword := some "src:".toList, marker := dotM3u8 },
    { keyword := some "file:".toList, marker := dotM3u8 },
    { keyword := some "url:".toList, marker := dotM3u8 } ]

/-- The error `findManifestURL` returns when no pattern gives a URL. -/
def errNoManifestURL : Error :=
  Error.text "no manifest URL found in iframe content".toList

/-- The loop of `findManifestURL` over the patterns. `Resolve base ref` is the
text of `base` resolved against `ref` by `url.Parse`, `ResolveReference` and
`String`, or `none` when one of the two does not parse. -/
def findLoop (Resolve : Str → Str → Option Str) (content baseURL : Str) :
    List regexp.Pattern → Str × Option Error
  | [] => ([], some errNoManifestURL)
  | pattern :: rest =>
    match regexp.FindStringSubmatch pattern content with
    | some manifestURL =>
      if strings.HasPrefix manifestURL httpMark then (manifestURL, none)
      else
        match Resolve baseURL manifestURL with
        | none => findLoop Resolve content baseURL rest
        | some resolved => (resolved, none)
    | none => findLoop Resolve content baseURL rest

/-- Go `(*Extractor).findManifestURL`: the URL and the error (`none` is nil). -/
def findManifestURL (Resolve : Str → Str → Option Str) (content baseURL : Str) :
    Str × Option Error :=
  findLoop Resolve content baseURL patterns

/-- The content holds a quote character followed by `http://` or `https://`,
text without quotes that contains `m3u8`, and a closing quote. -/
def HasQuotedManifest (content : Str) : Prop :=
  ∃ (before : Str) (q : Char) (rest between : Str) (q' : Char) (after : Str),
    content = before ++ q :: (between ++ q' :: after) ∧
      regexp.isQuote q = true ∧ regexp.isQuote q' = true ∧
      (∀ c ∈ between, regexp.isQuote c = false) ∧
      (between = regexp.httpScheme ++ rest ∨ between = regexp.httpsScheme ++ rest) ∧
      m3u8 <:+: rest

end extractor

/-! ## Package `url` -/

namespace strings

/-- Go `strings.LastIndex(s, sep)` for a separator of one character: the
position of its last occurrence, or -1. -/
def LastIndex (s : Str) (sep : Char) : Int :=
  match s.reverse.indexOf? sep with
  | some k => (s.length : Int) - 1 - k
  | none => -1

/-- Go `strings.Cut(s, sep)` for a separator of one character: the text before
and after its first occurrence, or `s` and the empty text. -/
def Cut (s : Str) (sep : Char) : Str × Str × Bool :=
  if sep ∈ s then (s.takeWhile (fun c => c ≠ sep), (s.dropWhile (fun c => c ≠ sep)).drop 1, true)
  else (s, [], false)

end strings

namespace url

/-- Go `url.URL`, the fields that the URLs of the form
`scheme://host/path?query#fragment` use (no `Opaque`, `User`, `RawPath`,
`OmitHost`, `RawFragment`). -/
structure URL where
  Scheme : Str
  Host : Str
  Path : Str
  ForceQuery : Bool
  RawQuery : Str
  Fragment : Str
deriving DecidableEq, Repr

/-- A letter of the ASCII alphabet. -/
def isLetter (c : Char) : Bool :=
  ('a' ≤ c && c ≤ 'z') || ('A' ≤ c && c ≤ 'Z')

/-- A character that is written as it is in every part of a URL: a letter, a
digit, `-`, `_`, `.` or `~`. -/
def isPlain (c : Char) : Bool :=
  isLetter c || ('0' ≤ c && c ≤ '9') || c = '-' || c = '_' || c = '.' || c = '~'

/-- Go `strings.ToLower` on one ASCII character. -/
def lower (c : Char) : Char :=
  if 'A' ≤ c ∧ c ≤ 'Z' then Char.ofNat (c.toNat + 32) else c

/-- Go `url.Parse` on plain URLs `scheme://host/path?query#fragment`: a scheme
of letters, a host of letters, digits, `-` and `.`, a path of plain characters
and `/`, a query of plain characters, `=` and `&`, a fragment of plain
characters; `none` is a parse error. On these the parser cuts the fragment at
the first `#`, lowers the scheme, sets `ForceQuery` when the rest ends in its
only `?` and otherwise cuts the query at the first `?`, and cuts the host at
the first `/`. Other texts are outside the model, which gives `none` for them. -/
def Parse (rawURL : Str) : Option URL :=
  let (u, frag, _) := strings.Cut rawURL '#'
  let scheme := u.takeWhile isLetter
  match u.dropWhile isLetter with
  | ':' :: '/' :: '/' :: rest =>
    let force := decide (rest.getLast? = some '?' ∧ rest.count '?' = 1)
    let (rest, query) :=
      if force then (rest.dropLast, [])
      else ((strings.Cut rest '?').1, (strings.Cut rest '?').2.1)
    let host := rest.takeWhile (fun c => c ≠ '/')
    let path := rest.dropWhile (fun c => c ≠ '/')
    if scheme ≠ [] ∧ host ≠ [] ∧
        host.all (fun c => isLetter c || ('0' ≤ c && c ≤ '9') || c = '-' || c = '.') ∧
        path.all (fun c => isPlain c || c = '/') ∧
        query.all (fun c => isPlain c || c = '=' || c = '&') ∧ frag.all isPlain then
      some { Scheme := scheme.map lower, Host := host, Path := path, ForceQuery := force
             RawQuery := query, Fragment := frag }
    else none
  | _ => none

/-- Go `(*URL).String` on a URL with a scheme and a host whose parts are made
of characters that need no escaping: `scheme://host`, the path (after a `/`
when it does not start with one), `?` and the query when `ForceQuery` is set
or the query is not empty, `#` and the fragment when it is not empty. -/
def URL.String (u : URL) : Str :=
  u.Scheme ++ ":".toList ++ "//".toList ++ u.Host ++
    (if u.Path ≠ [] ∧ u.Path.head? ≠ some '/' then "/".toList else []) ++ u.Path ++
    (if u.ForceQuery = true ∨ u.RawQuery ≠ [] then '?' :: u.RawQuery else []) ++
    (if u.Fragment ≠ [] then '#' :: u.Fragment else [])

end url

namespace extractor

/-- Go `(*Extractor).getBaseURL`; `Parse` is `url.Parse` (`none` is an error)
and `String` is `(*URL).String`. -/
def getBaseURL (Parse : Str → Option url.URL) (String : url.URL → Str) (manifestURL : Str) :
    Str :=
  match Parse manifestURL with
  | none => manifestURL
  | some u =>
    String { u with
      Path := u.Path.take (strings.LastIndex u.Path '/' + 1).toNat
      RawQuery := []
      Fragment := [] }

end extractor

/-! ## Properties of `parseManifest` -/

namespace extractor

open models

theorem hasPrefix_hash_of_extinf (t : Str) (h : strings.HasPrefix t extinf = true) :
    strings.HasPrefix t hashMark = true := by
  cases t with
  | nil => simp [strings.HasPrefix, extinf] at h
  | cons c cs =>
    simp only [strings.HasPrefix, extinf, hashMark, String.toList] at h ⊢
    simp [List.isPrefixOf] at h ⊢
    exact h.1

theorem not_content_of_extinf (l : Str) (h : isExtinfLine l = true) :
    isContentLine l = false := by
  simp [isContentLine, hasPrefix_hash_of_extinf _ h]

theorem parseLine_extinf (pf : Str → Option Float64) (B : Str) (st : ParseState) (l : Str)
    (h : isExtinfLine l = true) :
    parseLine pf B st l =
      { st with currentDuration := declaredDuration pf (strings.TrimSpace l) } := by
  unfold isExtinfLine at h
  simp [parseLine, h]

theorem parseLine_content (pf : Str → Option Float64) (B : Str) (st : ParseState) (l : Str)
    (h : isContentLine l = true) :
    parseLine pf B st l =
      { st with
        segments := st.segments ++
          [mkSegment B (strings.TrimSpace l) st.currentDuration st.segmentIndex]
        segmentIndex := st.segmentIndex + 1 } := by
  have hx : isExtinfLine l = false := by
    cases hx : isExtinfLine l with
    | false => rfl
    | true => rw [not_content_of_extinf l hx] at h; cases h
  unfold isExtinfLine at hx
  simp only [isContentLine, Bool.and_eq_true, decide_eq_true_eq, Bool.not_eq_true'] at h
  simp [parseLine, hx, h.1, h.2]

theorem parseLine_other (pf : Str → Option Float64) (B : Str) (st : ParseState) (l : Str)
    (hx : isExtinfLine l = false) (hc : isContentLine l = false) :
    parseLine pf B st l = st := by
  unfold isExtinfLine at hx
  simp only [isContentLine, Bool.and_eq_false_iff, decide_eq_false_iff_not, not_not,
    Bool.not_eq_false'] at hc
  simp only [parseLine, hx]
  rcases hc with hc | hc
  · simp [hc]
  · simp [hc]

theorem parseLine_cases (pf : Str → Option Float64) (B : Str) (st : ParseState) (l : Str) :
    parseLine pf B st l =
      if isExtinfLine l = true then
        { st with currentDuration := declaredDuration pf (strings.TrimSpace l) }
      else if isContentLine l = true then
        { st with
          segments := st.segments ++
            [mkSegment B (strings.TrimSpace l) st.currentDuration st.segmentIndex]
          segmentIndex := st.segmentIndex + 1 }
      else st := by
  by_cases hx : isExtinfLine l = true
  · rw [if_pos hx, parseLine_extinf pf B st l hx]
  · rw [if_neg hx]
    by_cases hc : isContentLine l = true
    · rw [if_pos hc, parseLine_content pf B st l hc]
    · rw [if_neg hc]
      exact parseLine_other pf B st l (by simpa using hx) (by simpa using hc)

/-- The loop appends one segment per content line and numbers them from the
current `segmentIndex`. -/
theorem foldl_parseLine_index (pf : Str → Option Float64) (B : Str) :
    ∀ (lines : List Str) (st : ParseState),
      (lines.foldl (parseLine pf B) st).segmentIndex =
          st.segmentIndex + (lines.filter isContentLine).length ∧
        (lines.foldl (parseLine pf B) st).segments.map (fun s => s.Index) =
          st.segments.map (fun s => s.Index) ++
            (List.range' st.segmentIndex (lines.filter isContentLine).length).map Int.ofNat ∧
        (lines.foldl (parseLine pf B) st).segments.map (fun s => s.URL) =
          st.segments.map (fun s => s.URL) ++
            (lines.filter isContentLine).map (fun l => segmentURL B (strings.TrimSpace l)) := by
  intro lines
  induction lines with
  | nil => intro st; simp
  | cons l ls ih =>
    intro st
    rw [List.foldl_cons]
    obtain ⟨h1, h2, h3⟩ := ih (parseLine pf B st l)
    rw [h1, h2, h3, parseLine_cases]
    by_cases hx : isExtinfLine l = true
    · have hc := not_content_of_extinf l hx
      simp [hx, hc]
    · by_cases hc : isContentLine l = true
      · simp [hx, hc, mkSegment, List.range'_succ, Nat.add_comm, Nat.add_left_comm]
      · simp [hx, hc]

theorem foldl_parseLine_length (pf : Str → Option Float64) (B : Str) (lines : List Str)
    (st : ParseState) :
    (lines.foldl (parseLine pf B) st).segments.length =
      st.segments.length + (lines.filter isContentLine).length := by
  have h := congrArg List.length (foldl_parseLine_index pf B lines st).2.1
  simpa using h

/-- The loop only ever appends to `segments`. -/
theorem foldl_parseLine_extends (pf : Str → Option Float64) (B : Str) :
    ∀ (lines : List Str) (st : ParseState),
      st.segments <+: (lines.foldl (parseLine pf B) st).segments := by
  intro lines
  induction lines with
  | nil => intro st; exact List.prefix_refl _
  | cons l ls ih =>
    intro st
    rw [List.foldl_cons]
    refine List.IsPrefix.trans ?_ (ih _)
    rw [parseLine_cases]
    by_cases hx : isExtinfLine l = true
    · simp [hx]
    · by_cases hc : isContentLine l = true
      · simp [hx, hc]
      · simp [hx, hc]

/-- Lines that are not duration declarations leave `currentDuration` alone. -/
theorem foldl_parseLine_duration (pf : Str → Option Float64) (B : Str) :
    ∀ (lines : List Str) (st : ParseState), (∀ l ∈ lines, isExtinfLine l = false) →
      (lines.foldl (parseLine pf B) st).currentDuration = st.currentDuration := by
  intro lines
  induction lines with
  | nil => intro st _; rfl
  | cons l ls ih =>
    intro st h
    rw [List.foldl_cons, ih _ (fun x hx => h x (List.mem_cons_of_mem _ hx)), parseLine_cases]
    have hx : isExtinfLine l = false := h l (List.mem_cons_self _ _)
    by_cases hc : isContentLine l = true
    · simp [hx, hc]
    · simp [hx, hc]

/-- The segments the loop has collected after all the lines of a manifest. -/
theorem parseLines_segments_length (pf : Str → Option Float64) (B : Str) (content : Str) :
    (parseLines pf B (strings.Split content '\n')).segments.length =
      (contentLines content).length := by
  simp [parseLines, contentLines, foldl_parseLine_length]

theorem parseManifest_ok_iff (pf : Str → Option Float64) (content : Str) (si : StreamInfo) :
    (parseManifest pf content si).2 = none ↔ contentLines content ≠ [] := by
  have hl := parseLines_segments_length pf si.BaseURL content
  unfold parseManifest
  by_cases h : (parseLines pf si.BaseURL (strings.Split content '\n')).segments.length = 0
  · simp only [h, if_true]
    rw [h] at hl
    simp [List.length_eq_zero.mp hl.symm]
  · simp only [h, if_false]
    have : (contentLines content).length ≠ 0 := by rw [← hl]; exact h
    simpa using this

theorem parseManifest_segments (pf : Str → Option Float64) (content : Str) (si : StreamInfo)
    (h : (parseManifest pf content si).2 = none) :
    (parseManifest pf content si).1.Segments =
      (parseLines pf si.BaseURL (strings.Split content '\n')).segments := by
  unfold parseManifest at h ⊢
  by_cases h0 : (parseLines pf si.BaseURL (strings.Split content '\n')).segments.length = 0
  · simp [h0] at h
  · simp [h0]

/-- C1, evaluated: the manifest `a.ts\nb.ts` has two content lines and no
`#EXTINF:` line; `parseManifest` accepts it and gives both segments the
duration 0 (the zero value of `currentDuration`) and the stream the total
duration 0, not 10.0 each and 20 seconds. -/
theorem parseManifest_no_extinf_zero_duration :
    (parseManifest strconv.ParseFloat "a.ts\nb.ts".toList sampleStream).2 = none ∧
      (parseManifest strconv.ParseFloat "a.ts\nb.ts".toList sampleStream).1.Segments.map
          (fun s => (s.Index, s.Duration)) =
        [(0, Float64.ofInt 0), (1, Float64.ofInt 0)] ∧
      (parseManifest strconv.ParseFloat "a.ts\nb.ts".toList sampleStream).1.Duration = 0 ∧
      (parseManifest strconv.ParseFloat "a.ts\nb.ts".toList sampleStream).1.Duration ≠
        20 * time.Second := by
  decide

/-- C2, evaluated: on `#EXTINF:10.5,\nseg1.ts\n#EXTINF:5.0,\nseg2.ts\n` the
segment durations are 10.5 and 5.0, their sum is 15.5, and the stored
`streamInfo.Duration` is 15 seconds (15000000000 ns), not 15.5 seconds
(15500000000 ns): the sum is converted to an integer before it is multiplied
by `time.Second`. -/
theorem parseManifest_total_duration_truncated :
    (parseManifest strconv.ParseFloat
        "#EXTINF:10.5,\nseg1.ts\n#EXTINF:5.0,\nseg2.ts\n".toList sampleStream).2 = none ∧
      (parseManifest strconv.ParseFloat
        "#EXTINF:10.5,\nseg1.ts\n#EXTINF:5.0,\nseg2.ts\n".toList sampleStream).1.Segments.map
          (fun s => s.Duration) = [⟨105, 1⟩, ⟨5, 0⟩] ∧
      totalDuration (parseManifest strconv.ParseFloat
        "#EXTINF:10.5,\nseg1.ts\n#EXTINF:5.0,\nseg2.ts\n".toList sampleStream).1.Segments =
          ⟨155, 1⟩ ∧
      (parseManifest strconv.ParseFloat
        "#EXTINF:10.5,\nseg1.ts\n#EXTINF:5.0,\nseg2.ts\n".toList sampleStream).1.Duration =
          15000000000 ∧
      (parseManifest strconv.ParseFloat
        "#EXTINF:10.5,\nseg1.ts\n#EXTINF:5.0,\nseg2.ts\n".toList sampleStream).1.Duration ≠
          15500000000 := by
  decide

/-- What `parseManifest` stores when it accepts a manifest: one segment per
content line, numbered from zero, with the URL made from the line. -/
theorem parseManifest_accepted (pf : Str → Option Float64) (content : Str)
    (si : StreamInfo) (h : (parseManifest pf content si).2 = none) :
    (parseManifest pf content si).1.Segments.length = (contentLines content).length ∧
      (parseManifest pf content si).1.Segments.map (fun s => s.Index) =
        (List.range (contentLines content).length).map Int.ofNat ∧
      ∀ (k : Nat) (line : Str), (contentLines content)[k]? = some line →
        ∃ seg, (parseManifest pf content si).1.Segments[k]? = some seg ∧
          seg.Index = (k : Int) ∧ seg.URL = segmentURL si.BaseURL line := by
  have hseg := parseManifest_segments pf content si h
  obtain ⟨-, hidx, hurl⟩ :=
    foldl_parseLine_index pf si.BaseURL (strings.Split content '\n') ⟨[], Float64.ofInt 0, 0⟩
  have hidx2 : (parseManifest pf content si).1.Segments.map (fun s => s.Index) =
      (List.range (contentLines content).length).map Int.ofNat := by
    rw [hseg]
    simpa [parseLines, contentLines, List.range_eq_range'] using hidx
  have hurl2 : (parseManifest pf content si).1.Segments.map (fun s => s.URL) =
      (contentLines content).map (segmentURL si.BaseURL) := by
    rw [hseg]
    simpa [parseLines, contentLines, Function.comp_def] using hurl
  have hlen : (parseManifest pf content si).1.Segments.length = (contentLines content).length := by
    rw [hseg]; exact parseLines_segments_length pf si.BaseURL content
  refine ⟨hlen, hidx2, ?_⟩
  · intro k line hk
    have hklt : k < (contentLines content).length := by
      rcases Nat.lt_or_ge k (contentLines content).length with hlt | hge
      · exact hlt
      · rw [List.getElem?_eq_none hge] at hk; cases hk
    have hk2 : k < (parseManifest pf content si).1.Segments.length := by rw [hlen]; exact hklt
    refine ⟨(parseManifest pf content si).1.Segments[k], List.getElem?_eq_getElem hk2, ?_, ?_⟩
    · have h1 := congrArg (fun l => l[k]?) hidx2
      simp only [List.getElem?_map, List.getElem?_eq_getElem hk2, Option.map_some',
        List.getElem?_range hklt] at h1
      exact Option.some.inj h1
    · have h1 := congrArg (fun l => l[k]?) hurl2
      simp only [List.getElem?_map, List.getElem?_eq_getElem hk2, Option.map_some', hk] at h1
      exact Option.some.inj h1

/-- C3: when `parseManifest` accepts a manifest with N content lines, it stores
exactly N segments; the segment at position k has `Index = k` and the URL made
from the k-th content line; the list of `Index` values is `0, 1, .., N-1` and
has no repetition. Lines that are not content lines take no index. -/
theorem parseManifest_index_is_content_position (pf : Str → Option Float64) (content : Str)
    (si : StreamInfo) (h : (parseManifest pf content si).2 = none) :
    (parseManifest pf content si).1.Segments.length = (contentLines content).length ∧
      (parseManifest pf content si).1.Segments.map (fun s => s.Index) =
        (List.range (contentLines content).length).map Int.ofNat ∧
      ((parseManifest pf content si).1.Segments.map (fun s => s.Index)).Nodup ∧
      ∀ (k : Nat) (line : Str), (contentLines content)[k]? = some line →
        ∃ seg, (parseManifest pf content si).1.Segments[k]? = some seg ∧
          seg.Index = (k : Int) ∧ seg.URL = segmentURL si.BaseURL line := by
  obtain ⟨hlen, hidx, hat⟩ := parseManifest_accepted pf content si h
  refine ⟨hlen, hidx, ?_, hat⟩
  rw [hidx]
  exact (List.nodup_range _).map (fun a b hab => by simpa using hab)

theorem parseManifest_index_is_content_position_witness :
    (parseManifest strconv.ParseFloat
        "#EXTM3U\n#EXTINF:10.0,\nseg1.ts\n\n#EXTINF:5.0,\nseg2.ts\n".toList sampleStream).2 = none ∧
      (parseManifest strconv.ParseFloat
        "#EXTM3U\n#EXTINF:10.0,\nseg1.ts\n\n#EXTINF:5.0,\nseg2.ts\n".toList
          sampleStream).1.Segments.map (fun s => s.Index) = [0, 1] :=
  ⟨by decide,
    (parseManifest_index_is_content_position strconv.ParseFloat
      "#EXTM3U\n#EXTINF:10.0,\nseg1.ts\n\n#EXTINF:5.0,\nseg2.ts\n".toList sampleStream
      (by decide)).2.1.trans (by decide)⟩

/-- C8: `parseManifest` returns an error exactly when the manifest has no
content line; the error is the no-segments error, and the stream information
(its `Segments` and `Duration` in particular) is then left as it was. -/
theorem parseManifest_error_iff_no_content (pf : Str → Option Float64) (content : Str)
    (si : StreamInfo) :
    ((parseManifest pf content si).2 ≠ none ↔ contentLines content = []) ∧
      ((parseManifest pf content si).2 ≠ none ↔
        ∀ l ∈ strings.Split content '\n',
          ¬(strings.TrimSpace l ≠ [] ∧
            strings.HasPrefix (strings.TrimSpace l) hashMark = false)) ∧
      ((parseManifest pf content si).2 ≠ none →
        (parseManifest pf content si).2 = some Error.noSegments ∧
          (parseManifest pf content si).1 = si ∧
          (parseManifest pf content si).1.Segments = si.Segments ∧
          (parseManifest pf content si).1.Duration = si.Duration) := by
  have hiff : (parseManifest pf content si).2 ≠ none ↔ contentLines content = [] := by
    rw [Ne, parseManifest_ok_iff]; simp
  refine ⟨hiff, ?_, ?_⟩
  · rw [hiff]
    simp only [contentLines, List.map_eq_nil_iff, List.filter_eq_nil_iff, isContentLine,
      Bool.and_eq_true, decide_eq_true_eq, Bool.not_eq_true']
  · intro h
    unfold parseManifest at h ⊢
    by_cases h0 : (parseLines pf si.BaseURL (strings.Split content '\n')).segments.length = 0
    · simp [h0]
    · simp [h0] at h

theorem parseManifest_error_iff_no_content_witness :
    (parseManifest strconv.ParseFloat "#EXTM3U\n\n#EXT-X-ENDLIST\n".toList sampleStream).2 =
        some Error.noSegments ∧
      (parseManifest strconv.ParseFloat "#EXTM3U\n\n#EXT-X-ENDLIST\n".toList sampleStream).1 =
        sampleStream :=
  ⟨((parseManifest_error_iff_no_content strconv.ParseFloat
      "#EXTM3U\n\n#EXT-X-ENDLIST\n".toList sampleStream).2.2 (by decide)).1,
    ((parseManifest_error_iff_no_content strconv.ParseFloat
      "#EXTM3U\n\n#EXT-X-ENDLIST\n".toList sampleStream).2.2 (by decide)).2.1⟩

/-- C9, evaluated: the content line `http_seg.ts` is a relative name, it
begins neither with `http://` nor with `https://`; `parseManifest` tests only
for the letters `http`, takes the line for an absolute URL, and stores the
line itself as the segment URL instead of the base URL followed by the line. -/
theorem parseManifest_http_named_segment_not_resolved :
    strings.HasPrefix "http_seg.ts".toList "http://".toList = false ∧
      strings.HasPrefix "http_seg.ts".toList "https://".toList = false ∧
      contentLines "http_seg.ts".toList = ["http_seg.ts".toList] ∧
      (parseManifest strconv.ParseFloat "http_seg.ts".toList sampleStream).1.Segments.map
          (fun s => s.URL) = ["http_seg.ts".toList] ∧
      (parseManifest strconv.ParseFloat "http_seg.ts".toList sampleStream).1.Segments.map
          (fun s => s.URL) ≠ [sampleStream.BaseURL ++ "http_seg.ts".toList] := by
  decide

theorem hasPrefix_trans (s p q : Str) (hq : strings.HasPrefix p q = true)
    (hp : strings.HasPrefix s p = true) : strings.HasPrefix s q = true := by
  simp only [strings.HasPrefix, List.isPrefixOf_iff_prefix] at *
  exact List.IsPrefix.trans hq hp

/-- How `parseManifest` resolves the k-th content line: a line that begins with
`http://` or `https://` is kept as the segment URL, and a line that does not
begin with `http` gets the base URL in front; the test the code makes is on the
letters `http` alone, so every other line that begins with them is kept as
well. -/
theorem parseManifest_url_resolution (pf : Str → Option Float64) (content : Str)
    (si : StreamInfo) (k : Nat) (line : Str) (hk : (contentLines content)[k]? = some line) :
    ∃ seg, (parseManifest pf content si).1.Segments[k]? = some seg ∧
      (strings.HasPrefix line httpMark = true → seg.URL = line) ∧
      (strings.HasPrefix line "http://".toList = true → seg.URL = line) ∧
      (strings.HasPrefix line "https://".toList = true → seg.URL = line) ∧
      (strings.HasPrefix line httpMark = false → seg.URL = si.BaseURL ++ line) := by
  have hne : contentLines content ≠ [] := by
    intro h0; rw [h0] at hk; simp at hk
  have hok := (parseManifest_ok_iff pf content si).2 hne
  obtain ⟨seg, hseg, -, hurl⟩ := (parseManifest_accepted pf content si hok).2.2 k line hk
  have h1 : strings.HasPrefix line httpMark = true → seg.URL = line := by
    intro h; rw [hurl]; simp [segmentURL, h]
  refine ⟨seg, hseg, h1, ?_, ?_, ?_⟩
  · intro h; exact h1 (hasPrefix_trans line _ httpMark (by decide) h)
  · intro h; exact h1 (hasPrefix_trans line _ httpMark (by decide) h)
  · intro h; rw [hurl]; simp [segmentURL, h]

theorem parseManifest_url_resolution_witness :
    ∃ seg, (parseManifest strconv.ParseFloat "https://cdn/a.ts\nb.ts".toList
        sampleStream).1.Segments[1]? = some seg ∧
      seg.URL = "https://h/video/b.ts".toList := by
  obtain ⟨seg, hseg, -, -, -, h⟩ :=
    parseManifest_url_resolution strconv.ParseFloat "https://cdn/a.ts\nb.ts".toList
      sampleStream 1 "b.ts".toList (by decide)
  exact ⟨seg, hseg, (h (by decide)).trans (by decide)⟩

/-- C10: in a manifest whose lines are `pre`, then a `#EXTINF:` line `e`, then
lines `mid` none of which is a `#EXTINF:` line, then a content line `c`, the
segment of `c` (its position is the number of content lines before it) has
the duration `e` declares: the number between `#EXTINF:` and the first comma,
or 10.0 when that text does not parse. `pre` is arbitrary, so an earlier
declaration is overridden by `e`. -/
theorem parseManifest_duration_from_nearest_extinf (pf : Str → Option Float64)
    (content : Str) (si : StreamInfo) (pre mid post : List Str) (e c : Str)
    (hsplit : strings.Split content '\n' = pre ++ e :: (mid ++ c :: post))
    (he : isExtinfLine e = true) (hmid : ∀ l ∈ mid, isExtinfLine l = false)
    (hc : isContentLine c = true) :
    ∃ seg,
      (parseManifest pf content si).1.Segments[((pre ++ mid).filter isContentLine).length]? =
          some seg ∧
        seg.URL = segmentURL si.BaseURL (strings.TrimSpace c) ∧
        seg.Duration =
          match pf ((strings.Split
              (strings.TrimPrefix (strings.TrimSpace e) extinf) ',').headD []) with
          | none => Float64.ofInt 10
          | some declared => declared := by
  -- the loop state after `pre`, after `e`, after `mid` and after `c`
  let st1 := pre.foldl (parseLine pf si.BaseURL) ⟨[], Float64.ofInt 0, 0⟩
  let st2 := parseLine pf si.BaseURL st1 e
  let st3 := mid.foldl (parseLine pf si.BaseURL) st2
  let st4 := parseLine pf si.BaseURL st3 c
  have hfinal : parseLines pf si.BaseURL (strings.Split content '\n') =
      post.foldl (parseLine pf si.BaseURL) st4 := by
    simp [parseLines, hsplit, List.foldl_append, st1, st2, st3, st4]
  have h2 : st2 = { st1 with currentDuration := declaredDuration pf (strings.TrimSpace e) } :=
    parseLine_extinf pf si.BaseURL st1 e he
  have h3d : st3.currentDuration = declaredDuration pf (strings.TrimSpace e) := by
    have := foldl_parseLine_duration pf si.BaseURL mid st2 hmid
    rw [this, h2]
  have h3l : st3.segments.length = ((pre ++ mid).filter isContentLine).length := by
    have ha := foldl_parseLine_length pf si.BaseURL mid st2
    have hb := foldl_parseLine_length pf si.BaseURL pre ⟨[], Float64.ofInt 0, 0⟩
    have hc2 : st2.segments = st1.segments := by rw [h2]
    simp only [List.filter_append, List.length_append]
    show (mid.foldl (parseLine pf si.BaseURL) st2).segments.length = _
    rw [ha, hc2]
    show (pre.foldl (parseLine pf si.BaseURL) ⟨[], Float64.ofInt 0, 0⟩).segments.length + _ = _
    rw [hb]; simp
  have h4 : st4.segments = st3.segments ++
      [mkSegment si.BaseURL (strings.TrimSpace c) st3.currentDuration st3.segmentIndex] := by
    show (parseLine pf si.BaseURL st3 c).segments = _
    rw [parseLine_content pf si.BaseURL st3 c hc]
  obtain ⟨rest, hrest⟩ := foldl_parseLine_extends pf si.BaseURL post st4
  have hsegs : (parseLines pf si.BaseURL (strings.Split content '\n')).segments =
      st3.segments ++
        mkSegment si.BaseURL (strings.TrimSpace c) st3.currentDuration st3.segmentIndex ::
          rest := by
    rw [hfinal, ← hrest, h4]; simp
  have hok : (parseManifest pf content si).2 = none := by
    unfold parseManifest
    simp [hsegs]
  rw [parseManifest_segments pf content si hok, hsegs, ← h3l]
  refine ⟨mkSegment si.BaseURL (strings.TrimSpace c) st3.currentDuration st3.segmentIndex,
    by rw [List.getElem?_append_right (Nat.le_refl _)]; simp, rfl, ?_⟩
  show st3.currentDuration = _
  rw [h3d]
  rfl

theorem parseManifest_duration_from_nearest_extinf_witness :
    (parseManifest strconv.ParseFloat "#EXTINF:10.0,\nseg1.ts\n#EXTINF:5.0,\nseg2.ts\n".toList
        sampleStream).1.Segments.map (fun s => s.Duration) =
        [Float64.ofInt 10, Float64.ofInt 5] ∧
      ∃ seg,
        (parseManifest strconv.ParseFloat
            "#EXTINF:10.0,\nseg1.ts\n#EXTINF:5.0,\nseg2.ts\n".toList
            sampleStream).1.Segments[1]? = some seg ∧
          seg.URL = "https://h/video/seg2.ts".toList ∧ seg.Duration = Float64.ofInt 5 := by
  obtain ⟨seg, hseg, hurl, hdur⟩ :=
    parseManifest_duration_from_nearest_extinf strconv.ParseFloat
      "#EXTINF:10.0,\nseg1.ts\n#EXTINF:5.0,\nseg2.ts\n".toList sampleStream
      ["#EXTINF:10.0,".toList, "seg1.ts".toList] [] [[]] "#EXTINF:5.0,".toList "seg2.ts".toList
      (by decide) (by decide) (by decide) (by decide)
  exact ⟨by decide, seg, hseg, hurl.trans (by decide), hdur.trans (by decide)⟩

end extractor

/-! ## Properties of the downloader -/

namespace downloader

open models

/-- The retry loop entered at iteration `attempt` with `remaining` iterations
left: it succeeds exactly when one of the calls `attempt, ..,
attempt + remaining - 1` succeeds, it stops at the first such call, and
otherwise makes all of them and wraps the last error. -/
theorem retryLoop_spec (R : Int) (ds : Nat → Option Str) :
    ∀ (remaining attempt : Nat) (lastErr : Option Str) (sleeps : List time.Duration),
      ((retryLoop R ds remaining attempt lastErr sleeps).err = none ↔
          ∃ i, attempt ≤ i ∧ i < attempt + remaining ∧ ds i = none) ∧
        ((retryLoop R ds remaining attempt lastErr sleeps).err = none →
          ∃ i, attempt ≤ i ∧ i < attempt + remaining ∧ ds i = none ∧
            (∀ j, attempt ≤ j → j < i → ds j ≠ none) ∧
            (retryLoop R ds remaining attempt lastErr sleeps).calls = i + 1) ∧
        (retryLoop R ds remaining attempt lastErr sleeps).calls ≤ attempt + remaining ∧
        ((∀ i, attempt ≤ i → i < attempt + remaining → ds i ≠ none) →
          (retryLoop R ds remaining attempt lastErr sleeps).calls = attempt + remaining ∧
            (retryLoop R ds remaining attempt lastErr sleeps).err =
              some (Error.failedAfterAttempts R
                (if remaining = 0 then lastErr else ds (attempt + remaining - 1)))) := by
  intro remaining
  induction remaining with
  | zero =>
    intro attempt lastErr sleeps
    simp [retryLoop]
    intro i h1 h2
    omega
  | succ n ih =>
    intro attempt lastErr sleeps
    cases hds : ds attempt with
    | none =>
      have hrun : retryLoop R ds (n + 1) attempt lastErr sleeps =
          { calls := attempt + 1
            sleeps := if attempt > 0 then sleeps ++ [wrap64 (attempt * time.Second)] else sleeps
            err := none } := by
        simp [retryLoop, hds]
      rw [hrun]
      refine ⟨?_, ?_, ?_, ?_⟩
      · simp only [true_iff]
        exact ⟨attempt, Nat.le_refl _, by omega, hds⟩
      · intro _
        exact ⟨attempt, Nat.le_refl _, by omega, hds, fun j h1 h2 => by omega, rfl⟩
      · simp
      · intro hall
        exact absurd hds (hall attempt (Nat.le_refl _) (by omega))
    | some e =>
      have hrun : retryLoop R ds (n + 1) attempt lastErr sleeps =
          retryLoop R ds n (attempt + 1) (some e)
            (if attempt > 0 then sleeps ++ [wrap64 (attempt * time.Second)] else sleeps) := by
        simp [retryLoop, hds]
      rw [hrun]
      obtain ⟨h1, h2, h3, h4⟩ := ih (attempt + 1) (some e)
        (if attempt > 0 then sleeps ++ [wrap64 (attempt * time.Second)] else sleeps)
      refine ⟨?_, ?_, ?_, ?_⟩
      · rw [h1]
        constructor
        · rintro ⟨i, hi1, hi2, hi3⟩
          exact ⟨i, by omega, by omega, hi3⟩
        · rintro ⟨i, hi1, hi2, hi3⟩
          have hne : i ≠ attempt := by
            intro heq; rw [heq, hds] at hi3; cases hi3
          exact ⟨i, by omega, by omega, hi3⟩
      · intro hnone
        obtain ⟨i, hi1, hi2, hi3, hi4, hi5⟩ := h2 hnone
        refine ⟨i, by omega, by omega, hi3, ?_, hi5⟩
        intro j hj1 hj2
        by_cases hja : j = attempt
        · rw [hja, hds]; simp
        · exact hi4 j (by omega) hj2
      · omega
      · intro hall
        obtain ⟨h5, h6⟩ := h4 (fun i hi1 hi2 => hall i (by omega) (by omega))
        refine ⟨by omega, ?_⟩
        rw [h6]
        by_cases hn : n = 0
        · subst hn; simp [hds]
        · have : attempt + 1 + n - 1 = attempt + (n + 1) - 1 := by omega
          simp [hn, this]

/-- C6: `downloadSegmentWithRetry` with `RetryAttempts = R` succeeds exactly
when one of the attempts `0, .., R-1` succeeds; it then stops at the first
success, having made no attempt after it; it never makes more than `R`
attempts (none at all when `R ≤ 0`); and when the first `R` attempts all fail
it makes exactly `R` attempts and fails with an error wrapping the error of
attempt `R-1`, whatever attempt `R` would have given. -/
theorem downloadSegmentWithRetry_bounded (R : Int) (ds : Nat → Option Str) :
    ((downloadSegmentWithRetry R ds).err = none ↔ ∃ i : Nat, (i : Int) < R ∧ ds i = none) ∧
      ((downloadSegmentWithRetry R ds).err = none →
        ∃ i : Nat, (i : Int) < R ∧ ds i = none ∧ (∀ j, j < i → ds j ≠ none) ∧
          (downloadSegmentWithRetry R ds).calls = i + 1) ∧
      (downloadSegmentWithRetry R ds).calls ≤ R.toNat ∧
      (0 ≤ R → ((downloadSegmentWithRetry R ds).calls : Int) ≤ R) ∧
      ((∀ i : Nat, (i : Int) < R → ds i ≠ none) →
        (downloadSegmentWithRetry R ds).calls = R.toNat ∧
          (downloadSegmentWithRetry R ds).err =
            some (Error.failedAfterAttempts R (if R ≤ 0 then none else ds (R.toNat - 1)))) := by
  obtain ⟨h1, h2, h3, h4⟩ := retryLoop_spec R ds R.toNat 0 none []
  have hlt : ∀ i : Nat, (i : Int) < R ↔ i < 0 + R.toNat := by
    intro i; omega
  refine ⟨?_, ?_, ?_, ?_, ?_⟩
  · unfold downloadSegmentWithRetry
    rw [h1]
    constructor
    · rintro ⟨i, -, hi, hd⟩; exact ⟨i, (hlt i).2 hi, hd⟩
    · rintro ⟨i, hi, hd⟩; exact ⟨i, Nat.zero_le _, (hlt i).1 hi, hd⟩
  · intro hnone
    obtain ⟨i, -, hi, hd, hj, hc⟩ := h2 hnone
    exact ⟨i, (hlt i).2 hi, hd, fun j hji => hj j (Nat.zero_le _) hji, hc⟩
  · unfold downloadSegmentWithRetry; omega
  · intro hR
    unfold downloadSegmentWithRetry; omega
  · intro hall
    obtain ⟨h5, h6⟩ := h4 (fun i _ hi => hall i ((hlt i).2 hi))
    unfold downloadSegmentWithRetry
    refine ⟨by omega, ?_⟩
    rw [h6]
    by_cases hR : R ≤ 0
    · have : R.toNat = 0 := by omega
      simp [hR, this]
    · have : R.toNat ≠ 0 := by omega
      simp [hR, this]

theorem downloadSegmentWithRetry_bounded_witness :
    (downloadSegmentWithRetry 3 (fun n => if n < 3 then some "timeout".toList else none)).calls
        = 3 ∧
      (downloadSegmentWithRetry 3 (fun n => if n < 3 then some "timeout".toList else none)).err
        = some (Error.failedAfterAttempts 3 (some "timeout".toList)) :=
  ⟨((downloadSegmentWithRetry_bounded 3
      (fun n => if n < 3 then some "timeout".toList else none)).2.2.2.2
      (fun i hi => by
        have : i < 3 := by omega
        simp [this])).1,
   (((downloadSegmentWithRetry_bounded 3
      (fun n => if n < 3 then some "timeout".toList else none)).2.2.2.2
      (fun i hi => by
        have : i < 3 := by omega
        simp [this])).2).trans (by decide)⟩

/-! ### The goroutines -/

theorem goroutines_length (cfg : Config) (net : Nat → Nat → Option Str) :
    ∀ (segs : List Segment) (p : Nat), (goroutines cfg net segs p).length = segs.length := by
  intro segs
  induction segs with
  | nil => intro p; rfl
  | cons s rest ih => intro p; simp [goroutines, ih]

/-- Every result carries the index and the file name of a segment. -/
theorem mem_goroutines (cfg : Config) (net : Nat → Nat → Option Str) :
    ∀ (segs : List Segment) (p : Nat) (r : SegmentResult), r ∈ goroutines cfg net segs p →
      ∃ s ∈ segs, r.Index = s.Index ∧ r.Filename = s.Filename := by
  intro segs
  induction segs with
  | nil => intro p r hr; simp [goroutines] at hr
  | cons s rest ih =>
    intro p r hr
    simp only [goroutines, List.mem_cons] at hr
    rcases hr with hr | hr
    · exact ⟨s, List.mem_cons_self _ _, by rw [hr]; rfl, by rw [hr]; rfl⟩
    · obtain ⟨s', hs', h1, h2⟩ := ih (p + 1) r hr
      exact ⟨s', List.mem_cons_of_mem _ hs', h1, h2⟩

/-- Every segment has a result. -/
theorem goroutines_complete (cfg : Config) (net : Nat → Nat → Option Str) :
    ∀ (segs : List Segment) (p : Nat) (s : Segment), s ∈ segs →
      ∃ r ∈ goroutines cfg net segs p, r.Index = s.Index ∧ r.Filename = s.Filename := by
  intro segs
  induction segs with
  | nil => intro p s hs; simp at hs
  | cons s0 rest ih =>
    intro p s hs
    simp only [List.mem_cons] at hs
    rcases hs with hs | hs
    · exact ⟨worker cfg (net p) s0, by simp [goroutines], by rw [hs]; rfl, by rw [hs]; rfl⟩
    · obtain ⟨r, hr, h1, h2⟩ := ih (p + 1) s hs
      exact ⟨r, by simp [goroutines, hr], h1, h2⟩

/-! ### The collecting loop -/

theorem collectStep_failed (total : Int) (clock : Nat → time.Duration)
    (statusText : Int → Int → time.Duration → Str) (st : Collector) (k : Nat)
    (r : SegmentResult) (h : r.Error ≠ none) :
    collectStep total clock statusText st k r =
      some
        { completed := st.completed, failed := st.failed + 1, segmentFiles := st.segmentFiles
          progress := st.progress.Update st.completed (st.completed + (st.failed + 1))
            (statusText st.completed total (clock k))
          updates := st.updates ++
            [st.progress.Update st.completed (st.completed + (st.failed + 1))
              (statusText st.completed total (clock k))] } := by
  simp [collectStep, h]

theorem collectStep_completed (total : Int) (clock : Nat → time.Duration)
    (statusText : Int → Int → time.Duration → Str) (st : Collector) (k : Nat)
    (r : SegmentResult) (h : r.Error = none)
    (hr : 0 ≤ r.Index ∧ r.Index < st.segmentFiles.length) :
    collectStep total clock statusText st k r =
      some
        { completed := st.completed + 1, failed := st.failed
          segmentFiles := st.segmentFiles.set r.Index.toNat r.Filename
          progress := st.progress.Update (st.completed + 1) (st.completed + 1 + st.failed)
            (statusText (st.completed + 1) total (clock k))
          updates := st.updates ++
            [st.progress.Update (st.completed + 1) (st.completed + 1 + st.failed)
              (statusText (st.completed + 1) total (clock k))] } := by
  simp [collectStep, h, setFile, hr]

theorem collectStep_panic (total : Int) (clock : Nat → time.Duration)
    (statusText : Int → Int → time.Duration → Str) (st : Collector) (k : Nat)
    (r : SegmentResult) (h : r.Error = none)
    (hr : ¬(0 ≤ r.Index ∧ r.Index < st.segmentFiles.length)) :
    collectStep total clock statusText st k r = none := by
  simp only [collectStep, h, setFile, if_neg hr]
  simp

theorem collectStep_facts (total : Int) (clock : Nat → time.Duration)
    (statusText : Int → Int → time.Duration → Str) (st st' : Collector) (k : Nat)
    (r : SegmentResult) (h : collectStep total clock statusText st k r = some st') :
    StepFacts st st' r := by
  by_cases he : r.Error = none
  · by_cases hr : 0 ≤ r.Index ∧ r.Index < st.segmentFiles.length
    · rw [collectStep_completed total clock statusText st k r he hr] at h
      cases h
      constructor <;> simp [he, hr, DownloadProgress.Update]
    · rw [collectStep_panic total clock statusText st k r he hr] at h
      cases h
  · rw [collectStep_failed total clock statusText st k r he] at h
    cases h
    constructor <;> simp [he, DownloadProgress.Update]

theorem collectStep_inv (N total : Int) (clock : Nat → time.Duration)
    (statusText : Int → Int → time.Duration → Str) (st st' : Collector) (k : Nat)
    (r : SegmentResult) (h : collectStep total clock statusText st k r = some st')
    (hinv : CollectInv N st) :
    CollectInv N st' ∧ st'.completed + st'.failed = st.completed + st.failed + 1 := by
  have f := collectStep_facts total clock statusText st st' k r h
  have hc := f.completed
  have hf := f.failed
  have hsum : st'.completed + st'.failed = st.completed + st.failed + 1 := by
    rw [hc, hf]; by_cases he : r.Error = none <;> simp [he] <;> omega
  have hc0 := hinv.completed_nonneg
  have hf0 := hinv.failed_nonneg
  have hcle : st.completed ≤ st'.completed := by
    rw [hc]; by_cases he : r.Error = none <;> simp [he]
  have hfle : st.failed ≤ st'.failed := by
    rw [hf]; by_cases he : r.Error = none <;> simp [he]
  refine ⟨⟨by omega, by omega, by rw [f.total]; exact hinv.total, ?_, ?_⟩, hsum⟩
  · intro u hu
    rw [f.updates, List.mem_append, List.mem_singleton] at hu
    rcases hu with hu | hu
    · obtain ⟨h1, h2, h3, h4, h5⟩ := hinv.bounded u hu
      exact ⟨h1, h2, h3, by omega, by omega⟩
    · subst hu
      refine ⟨by rw [f.total]; exact hinv.total, ?_, ?_, ?_, ?_⟩
      · rw [f.progress.1]; omega
      · rw [f.progress.1, f.progress.2]; omega
      · rw [f.progress.1]
      · rw [f.progress.2]
  · rw [f.updates, List.pairwise_append]
    refine ⟨hinv.monotone, List.pairwise_singleton _ _, ?_⟩
    intro a ha b hb
    rw [List.mem_singleton] at hb
    subst hb
    obtain ⟨-, -, -, h4, h5⟩ := hinv.bounded a ha
    exact ⟨by rw [f.progress.1]; omega, by rw [f.progress.2]; omega⟩

theorem collect_inv (N total : Int) (clock : Nat → time.Duration)
    (statusText : Int → Int → time.Duration → Str) :
    ∀ (arrived : List SegmentResult) (k : Nat) (st : Collector), CollectInv N st →
      CollectInv N (collect total clock statusText arrived k st).1 ∧
        (collect total clock statusText arrived k st).1.completed +
            (collect total clock statusText arrived k st).1.failed ≤
          st.completed + st.failed + arrived.length := by
  intro arrived
  induction arrived with
  | nil => intro k st hinv; exact ⟨hinv, by simp [collect]⟩
  | cons r rest ih =>
    intro k st hinv
    cases hstep : collectStep total clock statusText st k r with
    | none =>
      have hc0 := hinv.completed_nonneg
      simp only [collect, hstep]
      exact ⟨hinv, by simp; omega⟩
    | some st' =>
      obtain ⟨hinv', hsum⟩ := collectStep_inv N total clock statusText st st' k r hstep hinv
      obtain ⟨h1, h2⟩ := ih (k + 1) st' hinv'
      simp only [collect, hstep]
      refine ⟨h1, ?_⟩
      simp only [List.length_cons, Nat.cast_add, Nat.cast_one]
      omega

/-- The updates of a run satisfy the bounds of the invariant with the number
of segments as the total. -/
theorem DownloadSegments_updates (d : Downloader) (mkdirAll : Option Str)
    (net : Nat → Nat → Option Str) (schedule : List SegmentResult → List SegmentResult)
    (clock : Nat → time.Duration) (statusText : Int → Int → time.Duration → Str)
    (si : StreamInfo)
    (hlen : (schedule (goroutines d.config net si.Segments 0)).length ≤ si.Segments.length) :
    (∀ u ∈ (DownloadSegments d mkdirAll net schedule clock statusText si).updates,
        u.TotalSegments = (si.Segments.length : Int) ∧ 0 ≤ u.CompletedSegments ∧
        u.CompletedSegments ≤ u.CurrentSegment ∧
        u.CurrentSegment ≤ (si.Segments.length : Int)) ∧
      (DownloadSegments d mkdirAll net schedule clock statusText si).updates.Pairwise
        ProgressLe := by
  have hstart : CollectInv (si.Segments.length : Int)
      { completed := 0, failed := 0, segmentFiles := List.replicate si.Segments.length []
        progress := initialProgress (si.Segments.length : Int), updates := [] } :=
    ⟨le_refl _, le_refl _, rfl, by simp, List.Pairwise.nil⟩
  obtain ⟨hinv, hsum⟩ := collect_inv (si.Segments.length : Int) (si.Segments.length : Int)
    clock statusText (schedule (goroutines d.config net si.Segments 0)) 0 _ hstart
  have hfinal : (∀ u ∈ (collect (si.Segments.length : Int) clock statusText
        (schedule (goroutines d.config net si.Segments 0)) 0
        { completed := 0, failed := 0, segmentFiles := List.replicate si.Segments.length []
          progress := initialProgress (si.Segments.length : Int), updates := [] }).1.updates,
        u.TotalSegments = (si.Segments.length : Int) ∧ 0 ≤ u.CompletedSegments ∧
        u.CompletedSegments ≤ u.CurrentSegment ∧
        u.CurrentSegment ≤ (si.Segments.length : Int)) := by
    intro u hu
    obtain ⟨h1, h2, h3, h4, h5⟩ := hinv.bounded u hu
    refine ⟨h1, h2, h3, ?_⟩
    simp only [zero_add] at hsum
    have : ((schedule (goroutines d.config net si.Segments 0)).length : Int) ≤
        (si.Segments.length : Int) := by exact_mod_cast hlen
    omega
  unfold DownloadSegments
  cases mkdirAll with
  | some cause => simp
  | none =>
    simp only
    split_ifs
    · simp
    · simp
    · exact ⟨hfinal, hinv.monotone⟩
    · exact ⟨hfinal, hinv.monotone⟩
    · exact ⟨hfinal, hinv.monotone⟩

theorem storeFiles_length (results : List SegmentResult) :
    ∀ files : List Str, (storeFiles files results).length = files.length := by
  induction results with
  | nil => intro files; rfl
  | cons r rest ih =>
    intro files
    simp only [storeFiles, List.foldl_cons]
    have := ih (if r.Error = none then files.set r.Index.toNat r.Filename else files)
    simp only [storeFiles] at this
    rw [this]
    split <;> simp

/-- When no result panics the loop, it counts the failed and the successful
results, stores the file names of the successful ones and makes one update per
result. -/
theorem collect_ok (total : Int) (clock : Nat → time.Duration)
    (statusText : Int → Int → time.Duration → Str) :
    ∀ (arrived : List SegmentResult) (k : Nat) (st : Collector),
      (∀ r ∈ arrived, r.Error = none → 0 ≤ r.Index ∧ r.Index < st.segmentFiles.length) →
      st.progress.CurrentSegment = st.completed + st.failed →
      st.progress.CompletedSegments = st.completed →
      (collect total clock statusText arrived k st).2 = false ∧
        (collect total clock statusText arrived k st).1.failed =
          st.failed + (arrived.countP (fun r => decide (r.Error ≠ none)) : Nat) ∧
        (collect total clock statusText arrived k st).1.completed =
          st.completed + (arrived.countP (fun r => decide (r.Error = none)) : Nat) ∧
        (collect total clock statusText arrived k st).1.segmentFiles =
          storeFiles st.segmentFiles arrived ∧
        (collect total clock statusText arrived k st).1.updates.length =
          st.updates.length + arrived.length ∧
        (collect total clock statusText arrived k st).1.progress.CurrentSegment =
          (collect total clock statusText arrived k st).1.completed +
            (collect total clock statusText arrived k st).1.failed ∧
        (collect total clock statusText arrived k st).1.progress.CompletedSegments =
          (collect total clock statusText arrived k st).1.completed := by
  intro arrived
  induction arrived with
  | nil => intro k st _ hcur hcomp; simp [collect, storeFiles, hcur, hcomp]
  | cons r rest ih =>
    intro k st hrange hcur hcomp
    have hr := hrange r (List.mem_cons_self _ _)
    have hstep : ∃ st', collectStep total clock statusText st k r = some st' := by
      by_cases he : r.Error = none
      · exact ⟨_, collectStep_completed total clock statusText st k r he (hr he)⟩
      · exact ⟨_, collectStep_failed total clock statusText st k r he⟩
    obtain ⟨st', hst'⟩ := hstep
    have f := collectStep_facts total clock statusText st st' k r hst'
    have hlen' : st'.segmentFiles.length = st.segmentFiles.length := by
      rw [f.files]; split <;> simp
    obtain ⟨h1, h2, h3, h4, h5, h6, h7⟩ := ih (k + 1) st'
      (fun x hx he => by rw [hlen']; exact hrange x (List.mem_cons_of_mem _ hx) he)
      f.progress.2 f.progress.1
    simp only [collect, hst']
    refine ⟨h1, ?_, ?_, ?_, ?_, h6, h7⟩
    · rw [h2, f.failed, List.countP_cons]
      by_cases he : r.Error = none
      · simp [he]
      · simp [he]; omega
    · rw [h3, f.completed, List.countP_cons]
      by_cases he : r.Error = none
      · simp [he]; omega
      · simp [he]
    · rw [h4, f.files]; rfl
    · rw [h5, f.updates]; simp; omega

/-- A run whose directory exists, whose semaphore has room and whose loop
does not panic returns after the loop. -/
theorem DownloadSegments_eq (d : Downloader) (net : Nat → Nat → Option Str)
    (schedule : List SegmentResult → List SegmentResult) (clock : Nat → time.Duration)
    (statusText : Int → Int → time.Duration → Str) (si : StreamInfo)
    (hconc : 1 ≤ d.config.MaxConcurrency)
    (hpanic : (collect (si.Segments.length : Int) clock statusText
      (schedule (goroutines d.config net si.Segments 0)) 0 (startCollector si)).2 = false) :
    DownloadSegments d none net schedule clock statusText si =
      if (finalCollector d net schedule clock statusText si).failed > 0 then
        { exit := Exit.returned (some (Error.failedToDownload
            (finalCollector d net schedule clock statusText si).failed si.Segments.length))
          streamInfo := si
          d := { d with progress := (finalCollector d net schedule clock statusText si).progress }
          updates := (finalCollector d net schedule clock statusText si).updates }
      else
        { exit := Exit.returned none
          streamInfo := { si with
            Segments := rewriteSegments
              (finalCollector d net schedule clock statusText si).segmentFiles 0 [] }
          d := { d with progress := (finalCollector d net schedule clock statusText si).progress }
          updates := (finalCollector d net schedule clock statusText si).updates } := by
  have h1 : ¬ d.config.MaxConcurrency < 0 := by omega
  have h2 : ¬ (d.config.MaxConcurrency = 0 ∧ si.Segments ≠ []) := by
    rintro ⟨h, -⟩; omega
  unfold startCollector at hpanic
  simp only [DownloadSegments, finalCollector, startCollector, h1, h2, hpanic, if_false]
  simp

/-- The facts of `collect_ok` for a run whose successful results all have an
index in range. -/
theorem finalCollector_ok (d : Downloader) (net : Nat → Nat → Option Str)
    (schedule : List SegmentResult → List SegmentResult) (clock : Nat → time.Duration)
    (statusText : Int → Int → time.Duration → Str) (si : StreamInfo)
    (hperm : (schedule (goroutines d.config net si.Segments 0)).Perm
      (goroutines d.config net si.Segments 0))
    (hidx : ∀ s ∈ si.Segments, 0 ≤ s.Index ∧ s.Index < si.Segments.length) :
    (collect (si.Segments.length : Int) clock statusText
        (schedule (goroutines d.config net si.Segments 0)) 0 (startCollector si)).2 = false ∧
      (finalCollector d net schedule clock statusText si).failed =
        ((goroutines d.config net si.Segments 0).countP
          (fun r => decide (r.Error ≠ none)) : Nat) ∧
      (finalCollector d net schedule clock statusText si).completed =
        ((goroutines d.config net si.Segments 0).countP
          (fun r => decide (r.Error = none)) : Nat) ∧
      (finalCollector d net schedule clock statusText si).segmentFiles =
        storeFiles (List.replicate si.Segments.length [])
          (schedule (goroutines d.config net si.Segments 0)) ∧
      (finalCollector d net schedule clock statusText si).updates.length =
        si.Segments.length ∧
      (finalCollector d net schedule clock statusText si).progress.CurrentSegment =
        (si.Segments.length : Int) ∧
      (finalCollector d net schedule clock statusText si).progress.CompletedSegments =
        (finalCollector d net schedule clock statusText si).completed := by
  have hrange : ∀ r ∈ schedule (goroutines d.config net si.Segments 0), r.Error = none →
      0 ≤ r.Index ∧ r.Index < (startCollector si).segmentFiles.length := by
    intro r hr _
    obtain ⟨s, hs, h1, -⟩ := mem_goroutines d.config net si.Segments 0 r (hperm.mem_iff.1 hr)
    rw [h1]
    simpa [startCollector] using hidx s hs
  obtain ⟨h1, h2, h3, h4, h5, h6, h7⟩ := collect_ok (si.Segments.length : Int) clock statusText
    (schedule (goroutines d.config net si.Segments 0)) 0 (startCollector si) hrange rfl rfl
  have hcount : ∀ p : SegmentResult → Bool,
      (schedule (goroutines d.config net si.Segments 0)).countP p =
        (goroutines d.config net si.Segments 0).countP p := fun p => hperm.countP_eq p
  have hlen : (schedule (goroutines d.config net si.Segments 0)).length = si.Segments.length := by
    rw [hperm.length_eq, goroutines_length]
  have hsum : ((goroutines d.config net si.Segments 0).countP
        (fun r => decide (r.Error = none)) : Int) +
      ((goroutines d.config net si.Segments 0).countP
        (fun r => decide (r.Error ≠ none)) : Int) = (si.Segments.length : Int) := by
    have := List.length_eq_countP_add_countP (fun r : SegmentResult => decide (r.Error = none))
      (goroutines d.config net si.Segments 0)
    rw [goroutines_length] at this
    have h' : (goroutines d.config net si.Segments 0).countP
        (fun r => decide (r.Error ≠ none)) =
        (goroutines d.config net si.Segments 0).countP
        (fun r => ¬ (decide (r.Error = none)) = true) := by
      congr 1; funext r; simp
    rw [h', this]
    push_cast
    rfl
  simp only [startCollector, zero_add, List.length_nil] at h2 h3 h4 h5
  refine ⟨h1, ?_, ?_, ?_, ?_, ?_, h7⟩
  · unfold finalCollector startCollector; rw [h2, hcount]
  · unfold finalCollector startCollector; rw [h3, hcount]
  · unfold finalCollector startCollector; rw [h4]
  · unfold finalCollector startCollector; rw [h5, hlen]
  · unfold finalCollector
    rw [h6]
    unfold startCollector
    rw [h2, h3, hcount, hcount]
    exact hsum

/-- C5 fails as stated: of the two segments with indices 5 and 0 the second
ultimately fails and the first succeeds; the write `segmentFiles[5]` into a
slice of length 2 panics, so `DownloadSegments` does not return the error. -/
theorem DownloadSegments_index_out_of_range_panics :
    (goroutines sampleDownloader.config sampleNet sampleBadDownload.Segments 0).map
        (fun r => (r.Index, r.Error)) =
        [(5, none), (0, some (Error.failedAfterAttempts 3 (some "HTTP error: 404".toList)))] ∧
      (DownloadSegments sampleDownloader none sampleNet id (fun _ => 0) (fun _ _ _ => [])
        sampleBadDownload).exit = Exit.panicked ∧
      (DownloadSegments sampleDownloader none sampleNet List.reverse (fun _ => 0)
        (fun _ _ _ => []) sampleBadDownload).exit = Exit.panicked := by
  decide

/-- C5, amended: when every segment's `Index` lies in `0..N-1` (and the output
directory exists and `MaxConcurrency ≥ 1`, so that every segment gets an
outcome), `DownloadSegments` returns, and it returns an error exactly when at
least one segment ultimately failed; the error carries the number of failed
segments and the number `N` of segments; at the return every segment has a
result: there was one update per segment and completed + failed = `N`. -/
theorem DownloadSegments_error_iff_failed (d : Downloader) (net : Nat → Nat → Option Str)
    (schedule : List SegmentResult → List SegmentResult) (clock : Nat → time.Duration)
    (statusText : Int → Int → time.Duration → Str) (si : StreamInfo)
    (hconc : 1 ≤ d.config.MaxConcurrency)
    (hperm : (schedule (goroutines d.config net si.Segments 0)).Perm
      (goroutines d.config net si.Segments 0))
    (hidx : ∀ s ∈ si.Segments, 0 ≤ s.Index ∧ s.Index < si.Segments.length) :
    ∃ err, (DownloadSegments d none net schedule clock statusText si).exit =
        Exit.returned err ∧
      (err ≠ none ↔ ∃ r ∈ goroutines d.config net si.Segments 0, r.Error ≠ none) ∧
      (err ≠ none →
        err = some (Error.failedToDownload
          ((goroutines d.config net si.Segments 0).countP (fun r => decide (r.Error ≠ none)) : Nat)
          si.Segments.length)) ∧
      (DownloadSegments d none net schedule clock statusText si).updates.length =
        si.Segments.length ∧
      (DownloadSegments d none net schedule clock statusText si).d.progress.CurrentSegment =
        (si.Segments.length : Int) ∧
      (DownloadSegments d none net schedule clock statusText si).d.progress.CompletedSegments +
        ((goroutines d.config net si.Segments 0).countP (fun r => decide (r.Error ≠ none)) : Nat)
          = (si.Segments.length : Int) := by
  obtain ⟨h1, h2, h3, -, h5, h6, h7⟩ :=
    finalCollector_ok d net schedule clock statusText si hperm hidx
  have heq := DownloadSegments_eq d net schedule clock statusText si hconc h1
  have hpos : (finalCollector d net schedule clock statusText si).failed > 0 ↔
      ∃ r ∈ goroutines d.config net si.Segments 0, r.Error ≠ none := by
    rw [h2]
    constructor
    · intro h
      have : 0 < (goroutines d.config net si.Segments 0).countP
          (fun r => decide (r.Error ≠ none)) := by exact_mod_cast h
      obtain ⟨r, hr, hp⟩ := List.countP_pos_iff.1 this
      exact ⟨r, hr, by simpa using hp⟩
    · rintro ⟨r, hr, hp⟩
      have : 0 < (goroutines d.config net si.Segments 0).countP
          (fun r => decide (r.Error ≠ none)) := List.countP_pos_iff.2 ⟨r, hr, by simpa using hp⟩
      exact_mod_cast this
  have hsum : (finalCollector d net schedule clock statusText si).progress.CompletedSegments +
      ((goroutines d.config net si.Segments 0).countP (fun r => decide (r.Error ≠ none)) : Nat)
        = (si.Segments.length : Int) := by
    rw [h7, ← h2, ← h6]
    have h6' : (finalCollector d net schedule clock statusText si).progress.CurrentSegment =
        (finalCollector d net schedule clock statusText si).completed +
          (finalCollector d net schedule clock statusText si).failed := by
      rw [h6, h2, h3]
      have := List.length_eq_countP_add_countP
        (fun r : SegmentResult => decide (r.Error = none)) (goroutines d.config net si.Segments 0)
      rw [goroutines_length] at this
      have h' : (goroutines d.config net si.Segments 0).countP
          (fun r => decide (r.Error ≠ none)) =
          (goroutines d.config net si.Segments 0).countP
          (fun r => ¬ (decide (r.Error = none)) = true) := by
        congr 1; funext r; simp
      rw [h', this]
      push_cast
      rfl
    rw [h6']
  by_cases hf : (finalCollector d net schedule clock statusText si).failed > 0
  · rw [if_pos hf] at heq
    refine ⟨some (Error.failedToDownload
      (finalCollector d net schedule clock statusText si).failed si.Segments.length), ?_, ?_, ?_,
      ?_, ?_, ?_⟩
    · rw [heq]
    · simp only [ne_eq, reduceCtorEq, not_false_eq_true, true_iff]
      exact hpos.1 hf
    · intro _; rw [h2]
    · rw [heq]; exact h5
    · rw [heq]; exact h6
    · rw [heq]; exact hsum
  · rw [if_neg hf] at heq
    refine ⟨none, ?_, ?_, ?_, ?_, ?_, ?_⟩
    · rw [heq]
    · simp only [ne_eq, not_true_eq_false, false_iff]
      exact fun h => hf (hpos.2 h)
    · intro h; exact absurd rfl h
    · rw [heq]; exact h5
    · rw [heq]; exact h6
    · rw [heq]; exact hsum

theorem DownloadSegments_error_iff_failed_witness :
    ∃ err, (DownloadSegments sampleDownloader none sampleNet List.reverse (fun _ => 0)
        (fun _ _ _ => []) sampleDownload).exit = Exit.returned err ∧
      err = some (Error.failedToDownload 1 3) := by
  obtain ⟨err, h1, h2, h3, -⟩ :=
    DownloadSegments_error_iff_failed sampleDownloader sampleNet List.reverse (fun _ => 0)
      (fun _ _ _ => []) sampleDownload (by decide) (List.reverse_perm _) (by decide)
  refine ⟨err, h1, ?_⟩
  have hne : err ≠ none := h2.2 (by decide)
  exact (h3 hne).trans (by decide)

/-- C7: in every run of `DownloadSegments`, whatever the order in which the
results arrive, every `Update` leaves `TotalSegments` at the number of
segments, the completed count and the completed-or-attempted count
(`CurrentSegment`) never exceed it, and from one `Update` to any later one
neither count decreases. -/
theorem DownloadSegments_progress_monotone (d : Downloader) (mkdirAll : Option Str)
    (net : Nat → Nat → Option Str) (schedule : List SegmentResult → List SegmentResult)
    (clock : Nat → time.Duration) (statusText : Int → Int → time.Duration → Str)
    (si : StreamInfo)
    (hperm : (schedule (goroutines d.config net si.Segments 0)).Perm
      (goroutines d.config net si.Segments 0)) :
    (∀ u ∈ (DownloadSegments d mkdirAll net schedule clock statusText si).updates,
        u.TotalSegments = (si.Segments.length : Int) ∧ 0 ≤ u.CompletedSegments ∧
        u.CompletedSegments ≤ u.TotalSegments ∧ u.CurrentSegment ≤ u.TotalSegments) ∧
      (DownloadSegments d mkdirAll net schedule clock statusText si).updates.Pairwise
        (fun a b =>
          a.CompletedSegments ≤ b.CompletedSegments ∧ a.CurrentSegment ≤ b.CurrentSegment) ∧
      (∀ (dp : DownloadProgress) (completed current : Int) (status : Str),
        (dp.Update completed current status).TotalSegments = dp.TotalSegments) := by
  have hlen : (schedule (goroutines d.config net si.Segments 0)).length ≤ si.Segments.length := by
    rw [hperm.length_eq, goroutines_length]
  obtain ⟨h1, h2⟩ := DownloadSegments_updates d mkdirAll net schedule clock statusText si hlen
  refine ⟨?_, h2, fun _ _ _ _ => rfl⟩
  intro u hu
  obtain ⟨ha, hb, hc, hd⟩ := h1 u hu
  exact ⟨ha, hb, by rw [ha]; omega, by rw [ha]; exact hd⟩

theorem DownloadSegments_progress_monotone_witness :
    (DownloadSegments sampleDownloader none sampleNet List.reverse (fun _ => 0)
        (fun _ _ _ => []) sampleDownload).updates.map
          (fun u => (u.CompletedSegments, u.CurrentSegment, u.TotalSegments)) =
        [(1, 1, 3), (1, 2, 3), (2, 3, 3)] ∧
      (DownloadSegments sampleDownloader none sampleNet List.reverse (fun _ => 0)
        (fun _ _ _ => []) sampleDownload).updates.Pairwise
        (fun a b =>
          a.CompletedSegments ≤ b.CompletedSegments ∧ a.CurrentSegment ≤ b.CurrentSegment) :=
  ⟨by decide,
    (DownloadSegments_progress_monotone sampleDownloader none sampleNet List.reverse
      (fun _ => 0) (fun _ _ _ => []) sampleDownload (List.reverse_perm _)).2.1⟩

theorem storeFiles_cons_ok (files : List Str) (r : SegmentResult) (rest : List SegmentResult)
    (h : r.Error = none) :
    storeFiles files (r :: rest) = storeFiles (files.set r.Index.toNat r.Filename) rest := by
  simp [storeFiles, h]

/-- After the writes of successful results with indices in range and one file
name per index, each written position holds the file name of its result and
every other position is as before. -/
theorem storeFiles_spec (results : List SegmentResult) :
    ∀ files : List Str,
      (∀ r ∈ results, r.Error = none) →
      (∀ r ∈ results, 0 ≤ r.Index ∧ r.Index < files.length) →
      (∀ r ∈ results, ∀ r' ∈ results, r.Index = r'.Index → r.Filename = r'.Filename) →
      (∀ r ∈ results, (storeFiles files results)[r.Index.toNat]? = some r.Filename) ∧
        (∀ j, (∀ r ∈ results, r.Index.toNat ≠ j) → (storeFiles files results)[j]? = files[j]?) := by
  induction results with
  | nil =>
    intro files _ _ _
    exact ⟨fun r hr => by simp at hr, fun j _ => rfl⟩
  | cons r rest ih =>
    intro files hok hrange hfun
    have hr := hrange r (List.mem_cons_self _ _)
    have hlen : (files.set r.Index.toNat r.Filename).length = files.length := by simp
    obtain ⟨ih1, ih2⟩ := ih (files.set r.Index.toNat r.Filename)
      (fun x hx => hok x (List.mem_cons_of_mem _ hx))
      (fun x hx => by rw [hlen]; exact hrange x (List.mem_cons_of_mem _ hx))
      (fun x hx y hy => hfun x (List.mem_cons_of_mem _ hx) y (List.mem_cons_of_mem _ hy))
    rw [storeFiles_cons_ok files r rest (hok r (List.mem_cons_self _ _))]
    constructor
    · intro x hx
      rw [List.mem_cons] at hx
      rcases hx with hx | hx
      · subst hx
        by_cases hex : ∃ y ∈ rest, y.Index.toNat = x.Index.toNat
        · obtain ⟨y, hy, hyx⟩ := hex
          have hy0 := hrange y (List.mem_cons_of_mem _ hy)
          have hidx : y.Index = x.Index := by omega
          have hy1 := ih1 y hy
          rw [hyx] at hy1
          rw [hy1, hfun y (List.mem_cons_of_mem _ hy) x (List.mem_cons_self _ _) hidx]
        · rw [ih2 x.Index.toNat (fun y hy hyx => hex ⟨y, hy, hyx⟩)]
          have : x.Index.toNat < files.length := by omega
          simp [List.getElem?_set, this]
      · exact ih1 x hx
    · intro j hj
      rw [ih2 j (fun y hy => hj y (List.mem_cons_of_mem _ hy))]
      have hne : r.Index.toNat ≠ j := hj r (List.mem_cons_self _ _)
      simp [List.getElem?_set, hne]

/-- When every file name is non-empty, the rebuilt list has one segment per
position, carrying the position as index and the file name. -/
theorem rewriteSegments_full :
    ∀ (files : List Str) (i : Nat) (acc : List Segment), (∀ f ∈ files, f ≠ []) →
      rewriteSegments files i acc =
        acc ++ List.zipWith rebuilt (List.range' i files.length) files := by
  intro files
  induction files with
  | nil => intro i acc _; simp [rewriteSegments]
  | cons f rest ih =>
    intro i acc h
    have hf : f ≠ [] := h f (List.mem_cons_self _ _)
    simp only [rewriteSegments, hf, ne_eq, not_false_eq_true, if_true]
    rw [ih (i + 1) _ (fun x hx => h x (List.mem_cons_of_mem _ hx))]
    simp [List.range'_succ, rebuilt]

theorem zipWith_rebuilt_index :
    ∀ (files : List Str) (i : Nat),
      (List.zipWith rebuilt (List.range' i files.length) files).map (fun s => s.Index) =
        (List.range' i files.length).map Int.ofNat := by
  intro files
  induction files with
  | nil => intro i; simp
  | cons f rest ih =>
    intro i
    simp only [List.length_cons, List.range'_succ, List.zipWith_cons_cons, List.map_cons]
    rw [ih (i + 1)]
    rfl

theorem zipWith_rebuilt_get (files : List Str) (k : Nat) (f : Str) (h : files[k]? = some f) :
    (List.zipWith rebuilt (List.range' 0 files.length) files)[k]? = some (rebuilt k f) := by
  have hk : k < files.length := by
    rcases Nat.lt_or_ge k files.length with hlt | hge
    · exact hlt
    · rw [List.getElem?_eq_none hge] at h; cases h
  rw [List.getElem?_zipWith, h, List.getElem?_range' 0 1 hk]
  simp

/-- The facts about the segments of a stream whose indices are a
rearrangement of `0..N-1`. -/
theorem index_perm_facts (segs : List Segment)
    (hidx : (segs.map (fun s => s.Index)).Perm ((List.range segs.length).map Int.ofNat)) :
    (∀ s ∈ segs, 0 ≤ s.Index ∧ s.Index < segs.length) ∧
      (∀ s ∈ segs, ∀ s' ∈ segs, s.Index = s'.Index → s = s') ∧
      (∀ i, i < segs.length → ∃ s ∈ segs, s.Index = (i : Int)) := by
  refine ⟨?_, ?_, ?_⟩
  · intro s hs
    have : s.Index ∈ (List.range segs.length).map Int.ofNat :=
      hidx.mem_iff.1 (List.mem_map.2 ⟨s, hs, rfl⟩)
    obtain ⟨i, hi, hi2⟩ := List.mem_map.1 this
    rw [List.mem_range] at hi
    rw [← hi2]
    constructor
    · exact Int.ofNat_nonneg i
    · exact Int.ofNat_lt.2 hi
  · have hnd : (segs.map (fun s => s.Index)).Nodup :=
      hidx.nodup_iff.2 ((List.nodup_range _).map (fun a b hab => by simpa using hab))
    intro s hs s' hs' h
    exact List.inj_on_of_nodup_map hnd hs hs' h
  · intro i hi
    have : (i : Int) ∈ segs.map (fun s => s.Index) :=
      hidx.mem_iff.2 (List.mem_map.2 ⟨i, List.mem_range.2 hi, rfl⟩)
    obtain ⟨s, hs, hs2⟩ := List.mem_map.1 this
    exact ⟨s, hs, hs2⟩

/-- When all downloads succeed the slice `segmentFiles` ends up holding, at
each segment's index, that segment's file name, in whatever order the results
arrive. -/
theorem storeFiles_all_ok (cfg : Config) (net : Nat → Nat → Option Str)
    (schedule : List SegmentResult → List SegmentResult) (segs : List Segment)
    (hperm : (schedule (goroutines cfg net segs 0)).Perm (goroutines cfg net segs 0))
    (hidx : (segs.map (fun s => s.Index)).Perm ((List.range segs.length).map Int.ofNat))
    (hok : ∀ r ∈ goroutines cfg net segs 0, r.Error = none) :
    (storeFiles (List.replicate segs.length []) (schedule (goroutines cfg net segs 0))).length =
        segs.length ∧
      ∀ s ∈ segs,
        (storeFiles (List.replicate segs.length [])
          (schedule (goroutines cfg net segs 0)))[s.Index.toNat]? = some s.Filename := by
  obtain ⟨hrange, hinj, -⟩ := index_perm_facts segs hidx
  have hmem : ∀ r ∈ schedule (goroutines cfg net segs 0),
      ∃ s ∈ segs, r.Index = s.Index ∧ r.Filename = s.Filename :=
    fun r hr => mem_goroutines cfg net segs 0 r (hperm.mem_iff.1 hr)
  obtain ⟨h1, -⟩ := storeFiles_spec (schedule (goroutines cfg net segs 0))
    (List.replicate segs.length [])
    (fun r hr => hok r (hperm.mem_iff.1 hr))
    (fun r hr => by
      obtain ⟨s, hs, hi, -⟩ := hmem r hr
      rw [hi]; simpa using hrange s hs)
    (fun r hr r' hr' hrr => by
      obtain ⟨s, hs, hi, hf⟩ := hmem r hr
      obtain ⟨s', hs', hi', hf'⟩ := hmem r' hr'
      have : s = s' := hinj s hs s' hs' (by rw [← hi, ← hi', hrr])
      rw [hf, hf', this])
  refine ⟨by rw [storeFiles_length]; simp, ?_⟩
  intro s hs
  obtain ⟨r, hr, hi, hf⟩ := goroutines_complete cfg net segs 0 s hs
  have := h1 r (hperm.mem_iff.2 hr)
  rw [hi, hf] at this
  exact this

/-- Two slices of the length of the stream that hold each segment's file name
at its index are equal. -/
theorem files_unique (segs : List Segment) (files files' : List Str)
    (hidx : (segs.map (fun s => s.Index)).Perm ((List.range segs.length).map Int.ofNat))
    (hlen : files.length = segs.length) (hlen' : files'.length = segs.length)
    (h : ∀ s ∈ segs, files[s.Index.toNat]? = some s.Filename)
    (h' : ∀ s ∈ segs, files'[s.Index.toNat]? = some s.Filename) : files = files' := by
  obtain ⟨-, -, hcov⟩ := index_perm_facts segs hidx
  apply List.ext_getElem?
  intro n
  rcases Nat.lt_or_ge n segs.length with hlt | hge
  · obtain ⟨s, hs, hsn⟩ := hcov n hlt
    have h1 := h s hs
    have h2 := h' s hs
    rw [hsn] at h1 h2
    simp only [Int.toNat_ofNat] at h1 h2
    rw [h1, h2]
  · rw [List.getElem?_eq_none (by omega), List.getElem?_eq_none (by omega)]

/-- A run in which every download succeeds, over segments whose indices are a
rearrangement of `0..N-1` and whose file names are non-empty, returns nil and
leaves the segments rebuilt from the stored file names. -/
theorem DownloadSegments_all_ok (d : Downloader) (net : Nat → Nat → Option Str)
    (schedule : List SegmentResult → List SegmentResult) (clock : Nat → time.Duration)
    (statusText : Int → Int → time.Duration → Str) (si : StreamInfo)
    (hconc : 1 ≤ d.config.MaxConcurrency)
    (hperm : (schedule (goroutines d.config net si.Segments 0)).Perm
      (goroutines d.config net si.Segments 0))
    (hidx : (si.Segments.map (fun s => s.Index)).Perm
      ((List.range si.Segments.length).map Int.ofNat))
    (hnames : ∀ s ∈ si.Segments, s.Filename ≠ [])
    (hok : ∀ r ∈ goroutines d.config net si.Segments 0, r.Error = none) :
    (DownloadSegments d none net schedule clock statusText si).exit = Exit.returned none ∧
      (DownloadSegments d none net schedule clock statusText si).streamInfo =
        { si with
          Segments := List.zipWith rebuilt (List.range' 0 si.Segments.length)
            (storeFiles (List.replicate si.Segments.length [])
              (schedule (goroutines d.config net si.Segments 0))) } := by
  obtain ⟨hrange, -, hcov⟩ := index_perm_facts si.Segments hidx
  obtain ⟨h1, h2, -, h4, -⟩ := finalCollector_ok d net schedule clock statusText si hperm hrange
  have hcount : (goroutines d.config net si.Segments 0).countP
      (fun r => decide (r.Error ≠ none)) = 0 := by
    rw [List.countP_eq_zero]
    intro r hr
    simp [hok r hr]
  have hf : ¬ (finalCollector d net schedule clock statusText si).failed > 0 := by
    rw [h2, hcount]; simp
  obtain ⟨hlen, hget⟩ := storeFiles_all_ok d.config net schedule si.Segments hperm hidx hok
  have hne : ∀ f ∈ storeFiles (List.replicate si.Segments.length [])
      (schedule (goroutines d.config net si.Segments 0)), f ≠ [] := by
    intro f hf
    obtain ⟨n, hn, hfn⟩ := List.getElem_of_mem hf
    rw [hlen] at hn
    obtain ⟨s, hs, hsn⟩ := hcov n hn
    have h := hget s hs
    rw [hsn] at h
    simp only [Int.toNat_ofNat] at h
    rw [List.getElem?_eq_getElem (by rw [hlen]; exact hn)] at h
    have : f = s.Filename := by rw [← hfn]; exact Option.some.inj h
    rw [this]
    exact hnames s hs
  have heq := DownloadSegments_eq d net schedule clock statusText si hconc h1
  rw [if_neg hf] at heq
  rw [heq, h4, rewriteSegments_full _ 0 [] hne, hlen]
  simp

/-- C4: for N segments whose indices are `0..N-1` (in any arrangement) and
whose file names are non-empty, when all downloads succeed `DownloadSegments`
returns nil and rewrites the segments to exactly N entries; entry i has
`Index = i` and the file name of the original segment with index i; the
indices are strictly increasing; and any other order of arrival gives the
same rewritten stream. -/
theorem DownloadSegments_rewrites_in_index_order (d : Downloader)
    (net : Nat → Nat → Option Str) (schedule : List SegmentResult → List SegmentResult)
    (clock : Nat → time.Duration) (statusText : Int → Int → time.Duration → Str)
    (si : StreamInfo) (hconc : 1 ≤ d.config.MaxConcurrency)
    (hperm : (schedule (goroutines d.config net si.Segments 0)).Perm
      (goroutines d.config net si.Segments 0))
    (hidx : (si.Segments.map (fun s => s.Index)).Perm
      ((List.range si.Segments.length).map Int.ofNat))
    (hnames : ∀ s ∈ si.Segments, s.Filename ≠ [])
    (hok : ∀ r ∈ goroutines d.config net si.Segments 0, r.Error = none) :
    (DownloadSegments d none net schedule clock statusText si).exit = Exit.returned none ∧
      (DownloadSegments d none net schedule clock statusText si).streamInfo.Segments.length =
        si.Segments.length ∧
      (DownloadSegments d none net schedule clock statusText si).streamInfo.Segments.map
          (fun s => s.Index) = (List.range si.Segments.length).map Int.ofNat ∧
      (∀ s ∈ si.Segments, ∃ seg,
        (DownloadSegments d none net schedule clock statusText si).streamInfo.Segments[
            s.Index.toNat]? = some seg ∧
          seg.Index = s.Index ∧ seg.Filename = s.Filename) ∧
      ((DownloadSegments d none net schedule clock statusText si).streamInfo.Segments.map
          (fun s => s.Index)).Pairwise (fun a b => a < b) ∧
      (∀ (schedule' : List SegmentResult → List SegmentResult) (clock' : Nat → time.Duration)
          (statusText' : Int → Int → time.Duration → Str),
        (schedule' (goroutines d.config net si.Segments 0)).Perm
            (goroutines d.config net si.Segments 0) →
          (DownloadSegments d none net schedule' clock' statusText' si).streamInfo =
            (DownloadSegments d none net schedule clock statusText si).streamInfo) := by
  obtain ⟨hexit, hsi⟩ :=
    DownloadSegments_all_ok d net schedule clock statusText si hconc hperm hidx hnames hok
  obtain ⟨hlen, hget⟩ := storeFiles_all_ok d.config net schedule si.Segments hperm hidx hok
  obtain ⟨hrange, -, -⟩ := index_perm_facts si.Segments hidx
  have hmap : (DownloadSegments d none net schedule clock statusText si).streamInfo.Segments.map
      (fun s => s.Index) = (List.range si.Segments.length).map Int.ofNat := by
    rw [hsi]
    have := zipWith_rebuilt_index (storeFiles (List.replicate si.Segments.length [])
      (schedule (goroutines d.config net si.Segments 0))) 0
    rw [hlen] at this
    simp only [this, List.range_eq_range']
  refine ⟨hexit, ?_, hmap, ?_, ?_, ?_⟩
  · have := congrArg List.length hmap
    simpa using this
  · intro s hs
    have h := zipWith_rebuilt_get _ s.Index.toNat s.Filename (hget s hs)
    rw [hlen] at h
    refine ⟨rebuilt s.Index.toNat s.Filename, by rw [hsi]; exact h, ?_, rfl⟩
    show ((s.Index.toNat : Nat) : Int) = s.Index
    exact Int.toNat_of_nonneg (hrange s hs).1
  · rw [hmap]
    exact (List.pairwise_lt_range _).map Int.ofNat (fun a b hab => Int.ofNat_lt.2 hab)
  · intro schedule' clock' statusText' hperm'
    obtain ⟨-, hsi'⟩ :=
      DownloadSegments_all_ok d net schedule' clock' statusText' si hconc hperm' hidx hnames hok
    obtain ⟨hlen', hget'⟩ := storeFiles_all_ok d.config net schedule' si.Segments hperm' hidx hok
    rw [hsi, hsi', files_unique si.Segments _ _ hidx hlen' hlen hget' hget]

theorem DownloadSegments_rewrites_in_index_order_witness :
    (DownloadSegments sampleDownloader none (fun _ _ => none) List.reverse (fun _ => 0)
        (fun _ _ _ => []) sampleDownload).streamInfo.Segments.map
          (fun s => (s.Index, s.Filename)) =
      [(0, "segment_0000.ts".toList), (1, "segment_0001.ts".toList),
        (2, "segment_0002.ts".toList)] ∧
      (DownloadSegments sampleDownloader none (fun _ _ => none) List.reverse (fun _ => 0)
        (fun _ _ _ => []) sampleDownload).streamInfo.Segments.map (fun s => s.Index) =
          (List.range 3).map Int.ofNat :=
  ⟨by decide,
    (DownloadSegments_rewrites_in_index_order sampleDownloader (fun _ _ => none) List.reverse
      (fun _ => 0) (fun _ _ _ => []) sampleDownload (by decide) (List.reverse_perm _)
      (by decide) (by decide) (by decide)).2.2.1⟩

end downloader

/-! ## Properties of the segment file names -/

namespace fmt

theorem digitChar_toNat (n : Nat) (h : n < 10) : (digitChar n).toNat - '0'.toNat = n := by
  interval_cases n <;> decide

theorem digitsValue_append (s t : Str) (acc : Nat) :
    digitsValue (s ++ t) acc = digitsValue t (digitsValue s acc) := by
  simp [digitsValue, List.foldl_append]

/-- The digits `decimalAux` produces, given enough fuel, are put in front of
`acc` and denote `n`. -/
theorem decimalAux_spec :
    ∀ (fuel n : Nat) (acc : Str), n < fuel →
      ∃ ds, decimalAux fuel n acc = ds ++ acc ∧
        ∀ a, digitsValue ds a = a * 10 ^ ds.length + n := by
  intro fuel
  induction fuel with
  | zero => intro n acc h; omega
  | succ fuel ih =>
    intro n acc h
    by_cases hn : n < 10
    · refine ⟨[digitChar n], by simp [decimalAux, hn], ?_⟩
      intro a
      simp only [digitsValue, List.foldl_cons, List.foldl_nil, List.length_singleton, pow_one]
      rw [digitChar_toNat n hn]
    · obtain ⟨ds, hds, hval⟩ := ih (n / 10) (digitChar n :: acc) (by omega)
      refine ⟨ds ++ [digitChar n], by simp [decimalAux, hn, hds], ?_⟩
      intro a
      rw [digitsValue_append, hval]
      have hd : (digitChar n).toNat - '0'.toNat = n % 10 := by
        have := digitChar_toNat (n % 10) (Nat.mod_lt _ (by decide))
        simpa [digitChar] using this
      simp only [digitsValue, List.foldl_cons, List.foldl_nil, hd, List.length_append,
        List.length_singleton, pow_succ]
      have := Nat.div_add_mod n 10
      nlinarith [this]

theorem digitsValue_decimal (n : Nat) : digitsValue (decimal n) 0 = n := by
  obtain ⟨ds, hds, hval⟩ := decimalAux_spec (n + 1) n [] (Nat.lt_succ_self n)
  simp only [decimal, hds, List.append_nil, hval, zero_mul, zero_add]

theorem digitsValue_zeros (k : Nat) (s : Str) :
    digitsValue (List.replicate k '0' ++ s) 0 = digitsValue s 0 := by
  induction k with
  | zero => rfl
  | succ k ih =>
    rw [List.replicate_succ, List.cons_append]
    simpa [digitsValue] using ih

/-- The text `%04d` prints denotes the number printed. -/
theorem digitsValue_decimal04 (n : Nat) : digitsValue (decimal04 n) 0 = n := by
  simp only [decimal04, digitsValue_zeros, digitsValue_decimal]

theorem decimal04_injective (i j : Nat) (h : decimal04 i = decimal04 j) : i = j := by
  have := congrArg (fun s => digitsValue s 0) h
  simpa [digitsValue_decimal04] using this

end fmt

namespace extractor

open models

theorem segmentFilename_injective (i j : Nat) (h : segmentFilename i = segmentFilename j) :
    i = j := by
  unfold segmentFilename at h
  rw [List.append_assoc, List.append_assoc] at h
  have h1 := List.append_cancel_left h
  have h2 := List.append_cancel_right h1
  exact fmt.decimal04_injective i j h2

/-- The loop names the segments it appends after their indices. -/
theorem foldl_parseLine_filename (pf : Str → Option Float64) (B : Str) :
    ∀ (lines : List Str) (st : ParseState),
      (lines.foldl (parseLine pf B) st).segments.map (fun s => s.Filename) =
        st.segments.map (fun s => s.Filename) ++
          (List.range' st.segmentIndex (lines.filter isContentLine).length).map
            segmentFilename := by
  intro lines
  induction lines with
  | nil => intro st; simp
  | cons l ls ih =>
    intro st
    rw [List.foldl_cons, ih, parseLine_cases]
    by_cases hx : isExtinfLine l = true
    · have hc := not_content_of_extinf l hx
      simp [hx, hc]
    · by_cases hc : isContentLine l = true
      · simp [hx, hc, mkSegment, segmentFilename, List.range'_succ]
      · simp [hx, hc]

/-- C15: the local file names `segment_` + index padded with zeros to at least
four digits + `.ts` of two different indices are different, for indices of
any size; the segments `parseManifest` stores carry these names for the
indices `0..N-1`, so no two of them share a file name. -/
theorem parseManifest_filenames_distinct (pf : Str → Option Float64) (content : Str)
    (si : StreamInfo) (h : (parseManifest pf content si).2 = none) :
    (∀ i j : Nat, i ≠ j → segmentFilename i ≠ segmentFilename j) ∧
      (parseManifest pf content si).1.Segments.map (fun s => s.Filename) =
        (List.range (contentLines content).length).map segmentFilename ∧
      ((parseManifest pf content si).1.Segments.map (fun s => s.Filename)).Nodup := by
  have hinj : ∀ i j : Nat, i ≠ j → segmentFilename i ≠ segmentFilename j :=
    fun i j hij heq => hij (segmentFilename_injective i j heq)
  have hmap : (parseManifest pf content si).1.Segments.map (fun s => s.Filename) =
      (List.range (contentLines content).length).map segmentFilename := by
    rw [parseManifest_segments pf content si h]
    have := foldl_parseLine_filename pf si.BaseURL (strings.Split content '\n')
      ⟨[], Float64.ofInt 0, 0⟩
    simpa [parseLines, contentLines, List.range_eq_range'] using this
  refine ⟨hinj, hmap, ?_⟩
  rw [hmap]
  exact (List.nodup_range _).map (fun a b hab => segmentFilename_injective a b hab)

theorem parseManifest_filenames_distinct_witness :
    segmentFilename 9999 = "segment_9999.ts".toList ∧
      segmentFilename 10000 = "segment_10000.ts".toList ∧
      segmentFilename 1000 ≠ segmentFilename 10000 ∧
      (parseManifest strconv.ParseFloat "a.ts\nb.ts".toList sampleStream).1.Segments.map
        (fun s => s.Filename) = ["segment_0000.ts".toList, "segment_0001.ts".toList] :=
  ⟨by decide, by decide,
    (parseManifest_filenames_distinct strconv.ParseFloat "a.ts\nb.ts".toList sampleStream
      (by decide)).1 1000 10000 (by decide),
    (parseManifest_filenames_distinct strconv.ParseFloat "a.ts\nb.ts".toList sampleStream
      (by decide)).2.1.trans (by decide)⟩

end extractor

/-! ## The downloader on the segments of `parseManifest` -/

namespace downloader

open models extractor

/-- The segments `parseManifest` stores have their indices in range. -/
theorem parseManifest_index_range (pf : Str → Option Float64) (content : Str)
    (si : StreamInfo) (h : (parseManifest pf content si).2 = none) :
    ∀ s ∈ (parseManifest pf content si).1.Segments,
      0 ≤ s.Index ∧ s.Index < (parseManifest pf content si).1.Segments.length := by
  obtain ⟨hlen, hmap, -⟩ := parseManifest_accepted pf content si h
  rw [← hlen] at hmap
  exact (index_perm_facts _ (by rw [hmap])).1

/-- C18: on the segments `parseManifest` stored (N segments with indices
`0..N-1`), every result the collecting loop of `DownloadSegments` receives has
`0 ≤ Index < N`, where N is the length of `segmentFiles`; the loop therefore
runs to the end without an index out of range, and `DownloadSegments` does not
panic once its semaphore is made. -/
theorem DownloadSegments_index_in_bounds (pf : Str → Option Float64) (content : Str)
    (si : StreamInfo) (d : Downloader) (mkdirAll : Option Str)
    (net : Nat → Nat → Option Str) (schedule : List SegmentResult → List SegmentResult)
    (clock : Nat → time.Duration) (statusText : Int → Int → time.Duration → Str)
    (h : (parseManifest pf content si).2 = none)
    (hperm : (schedule (goroutines d.config net (parseManifest pf content si).1.Segments 0)).Perm
      (goroutines d.config net (parseManifest pf content si).1.Segments 0)) :
    (∀ r ∈ schedule (goroutines d.config net (parseManifest pf content si).1.Segments 0),
        0 ≤ r.Index ∧
          r.Index < (startCollector (parseManifest pf content si).1).segmentFiles.length) ∧
      (collect ((parseManifest pf content si).1.Segments.length : Int) clock statusText
          (schedule (goroutines d.config net (parseManifest pf content si).1.Segments 0)) 0
          (startCollector (parseManifest pf content si).1)).2 = false ∧
      (0 ≤ d.config.MaxConcurrency →
        (DownloadSegments d mkdirAll net schedule clock statusText
          (parseManifest pf content si).1).exit ≠ Exit.panicked) := by
  have hidx := parseManifest_index_range pf content si h
  obtain ⟨hnopanic, -⟩ := finalCollector_ok d net schedule clock statusText
    (parseManifest pf content si).1 hperm hidx
  refine ⟨?_, hnopanic, ?_⟩
  · intro r hr
    obtain ⟨s, hs, h1, -⟩ := mem_goroutines d.config net _ 0 r (hperm.mem_iff.1 hr)
    rw [h1]
    simpa [startCollector] using hidx s hs
  · intro hconc
    have h1 : ¬ d.config.MaxConcurrency < 0 := by omega
    unfold startCollector at hnopanic
    unfold DownloadSegments
    cases mkdirAll with
    | some cause => simp
    | none =>
      simp only [h1, if_false, hnopanic]
      split_ifs with ha hb hc
      · simp
      · exact absurd hb (by simp)
      · simp
      · simp

theorem DownloadSegments_index_in_bounds_witness :
    (DownloadSegments sampleDownloader none sampleNet List.reverse (fun _ => 0)
        (fun _ _ _ => [])
        (parseManifest strconv.ParseFloat "a.ts\nb.ts\nc.ts".toList sampleStream).1).exit =
      Exit.returned (some (Error.failedToDownload 1 3)) ∧
      (DownloadSegments sampleDownloader none sampleNet List.reverse (fun _ => 0)
        (fun _ _ _ => [])
        (parseManifest strconv.ParseFloat "a.ts\nb.ts\nc.ts".toList sampleStream).1).exit ≠
      Exit.panicked :=
  ⟨by decide,
    (DownloadSegments_index_in_bounds strconv.ParseFloat "a.ts\nb.ts\nc.ts".toList sampleStream
      sampleDownloader none sampleNet List.reverse (fun _ => 0) (fun _ _ _ => []) (by decide)
      (List.reverse_perm _)).2.2 (by decide)⟩

end downloader

/-! ## The bound on concurrent fetches -/

namespace downloader

theorem Pool.fetching_le_holding (s : Pool) : s.fetching ≤ s.holding := by
  unfold Pool.fetching Pool.holding
  apply List.countP_mono_left
  intro p _ hp
  simp only [decide_eq_true_eq] at hp ⊢
  exact Or.inl hp

/-- A move keeps the semaphore channel holding one element per goroutine with
a slot, and never more than its capacity. -/
theorem Pool.step_inv (c : Int) (s s' : Pool) (i : Nat) (h : s.step c i = some s')
    (hinv : s.holding = s.semaphore ∧ (s.semaphore : Int) ≤ c) :
    s'.holding = s'.semaphore ∧ (s'.semaphore : Int) ≤ c := by
  obtain ⟨hh, hc⟩ := hinv
  unfold Pool.step at h
  cases hp : s.phases[i]? with
  | none => simp [hp] at h
  | some p =>
    have hi : i < s.phases.length := by
      rcases Nat.lt_or_ge i s.phases.length with hlt | hge
      · exact hlt
      · rw [List.getElem?_eq_none hge] at hp; cases hp
    have hget : s.phases[i] = p := by
      rw [List.getElem?_eq_getElem hi] at hp; exact Option.some.inj hp
    have hle := List.boole_getElem_le_countP
      (fun p => decide (p = Phase.fetching ∨ p = Phase.sent)) s.phases i hi
    rw [hget] at hle
    unfold Pool.holding at hh ⊢
    cases p with
    | queued =>
      simp only [hp] at h
      by_cases hlt : (s.semaphore : Int) < c
      · simp only [hlt, if_true, Option.some.injEq] at h
        subst h
        simp only [List.countP_set _ _ _ _ hi, hget]
        simp only [reduceCtorEq, or_self, decide_False, Bool.false_eq_true, if_false,
          true_or, decide_True, if_true] at hle ⊢
        constructor
        · omega
        · push_cast; omega
      · simp [hlt] at h
    | fetching =>
      simp only [hp, Option.some.injEq] at h
      subst h
      simp only [List.countP_set _ _ _ _ hi, hget]
      simp only [true_or, decide_True, if_true, or_true] at hle ⊢
      exact ⟨by omega, hc⟩
    | sent =>
      simp only [hp, Option.some.injEq] at h
      subst h
      simp only [List.countP_set _ _ _ _ hi, hget]
      simp only [or_true, decide_True, if_true, reduceCtorEq, or_self, decide_False,
        Bool.false_eq_true, if_false] at hle ⊢
      constructor
      · omega
      · have : ((s.semaphore - 1 : Nat) : Int) ≤ (s.semaphore : Int) := by
          exact_mod_cast Nat.sub_le _ _
        omega
    | finished => simp [hp] at h

theorem Pool.run_inv (c : Int) :
    ∀ (schedule : List Nat) (s : Pool),
      (s.holding = s.semaphore ∧ (s.semaphore : Int) ≤ c) →
      (Pool.run c schedule s).holding = (Pool.run c schedule s).semaphore ∧
        ((Pool.run c schedule s).semaphore : Int) ≤ c := by
  intro schedule
  induction schedule with
  | nil => intro s h; exact h
  | cons i rest ih =>
    intro s h
    simp only [Pool.run]
    apply ih
    cases hstep : s.step c i with
    | none => simpa using h
    | some s' => simpa using Pool.step_inv c s s' i hstep h

/-- C17: with `MaxConcurrency = c ≥ 1`, in every state the goroutines of the
segments reach from their start, under any interleaving of their moves, the
number of goroutines executing `downloadSegmentWithRetry` is at most `c`: the
semaphore channel holds one element per goroutine that is past its send and
has not yet returned, and never more than `c`. -/
theorem Pool.fetching_bounded (c : Int) (segments : Nat) (schedule : List Nat)
    (hc : 1 ≤ c) :
    ((Pool.run c schedule (Pool.start segments)).fetching : Int) ≤ c ∧
      (Pool.run c schedule (Pool.start segments)).holding =
        (Pool.run c schedule (Pool.start segments)).semaphore ∧
      ((Pool.run c schedule (Pool.start segments)).semaphore : Int) ≤ c := by
  have hstart : (Pool.start segments).holding = (Pool.start segments).semaphore ∧
      ((Pool.start segments).semaphore : Int) ≤ c := by
    constructor
    · simp [Pool.start, Pool.holding, List.countP_eq_zero]
    · simp only [Pool.start, Nat.cast_zero]; omega
  obtain ⟨h1, h2⟩ := Pool.run_inv c schedule (Pool.start segments) hstart
  refine ⟨?_, h1, h2⟩
  have h3 := Pool.fetching_le_holding (Pool.run c schedule (Pool.start segments))
  have h4 : ((Pool.run c schedule (Pool.start segments)).fetching : Int) ≤
      ((Pool.run c schedule (Pool.start segments)).holding : Int) := by exact_mod_cast h3
  rw [h1] at h4
  omega

theorem Pool.fetching_bounded_witness :
    (Pool.run 2 [0, 1, 2, 3, 0, 2] (Pool.start 4)).phases =
        [Phase.sent, Phase.fetching, Phase.queued, Phase.queued] ∧
      ((Pool.run 2 [0, 1, 2, 3, 0, 2] (Pool.start 4)).fetching : Int) ≤ 2 :=
  ⟨by decide, (Pool.fetching_bounded 2 4 [0, 1, 2, 3, 0, 2] (by decide)).1⟩

end downloader

/-! ## Properties of the output file name -/

namespace utf8

theorem encodeRune_ne_nil (c : Char) : encodeRune c ≠ [] := by
  unfold encodeRune
  simp only
  split_ifs <;> simp

theorem encode_eq_nil (s : Str) : encode s = [] ↔ s = [] := by
  cases s with
  | nil => simp [encode]
  | cons c cs =>
    simp only [encode, List.flatMap_cons, List.append_eq_nil, reduceCtorEq, iff_false, not_and]
    intro h
    exact absurd h (encodeRune_ne_nil c)

/-- The bytes of a text of ASCII characters are its characters. -/
theorem encode_ascii (s : Str) (h : ∀ c ∈ s, c.toNat < 0x80) :
    encode s = s.map Char.toNat := by
  induction s with
  | nil => rfl
  | cons c cs ih =>
    have hc := h c (List.mem_cons_self _ _)
    have hcs := ih (fun x hx => h x (List.mem_cons_of_mem _ hx))
    unfold encode at hcs ⊢
    simp only [List.flatMap_cons, hcs, List.map_cons]
    simp [encodeRune, hc]

theorem runeWidth_pos (c : Nat) (rest : Bytes) : 1 ≤ runeWidth (c :: rest) := by
  rcases rest with _ | ⟨c1, _ | ⟨c2, _ | ⟨c3, tail⟩⟩⟩ <;>
    (simp only [runeWidth]; split_ifs <;> omega)

theorem runeCountAux_le : ∀ (fuel : Nat) (s : Bytes), runeCountAux fuel s ≤ s.length := by
  intro fuel
  induction fuel with
  | zero => intro s; simp [runeCountAux]
  | succ fuel ih =>
    intro s
    cases s with
    | nil => simp [runeCountAux]
    | cons c rest =>
      have hw := runeWidth_pos c rest
      have := ih ((c :: rest).drop (runeWidth (c :: rest)))
      simp only [runeCountAux]
      simp only [List.length_drop, List.length_cons] at this ⊢
      omega

/-- A string has at most as many runes as bytes. -/
theorem RuneCountInString_le (s : Bytes) : RuneCountInString s ≤ s.length :=
  runeCountAux_le s.length s

end utf8

namespace merger

open models

theorem ReplaceAll_one {α : Type} [DecidableEq α] (s : List α) (old new : α) :
    strings.ReplaceAll s old [new] = s.map (fun c => if c = old then new else c) := by
  induction s with
  | nil => rfl
  | cons c cs ih =>
    unfold strings.ReplaceAll at ih ⊢
    simp only [List.flatMap_cons, ih, List.map_cons]
    split_ifs <;> rfl

theorem ReplaceAll_byte (s : Bytes) (old : Nat) :
    strings.ReplaceAll s old [underscore] = s.map (replaceByte old) := by
  rw [ReplaceAll_one]
  rfl

theorem sanitize_chain (b : Nat) :
    replaceByte '|'.toNat (replaceByte '>'.toNat (replaceByte '<'.toNat (replaceByte '"'.toNat
      (replaceByte '?'.toNat (replaceByte '*'.toNat (replaceByte ':'.toNat
        (replaceByte '\\'.toNat (replaceByte '/'.toNat (replaceByte ' '.toNat b))))))))) =
      sanitize b := by
  by_cases h1 : b = 32
  · subst h1; decide
  by_cases h2 : b = 47
  · subst h2; decide
  by_cases h3 : b = 92
  · subst h3; decide
  by_cases h4 : b = 58
  · subst h4; decide
  by_cases h5 : b = 42
  · subst h5; decide
  by_cases h6 : b = 63
  · subst h6; decide
  by_cases h7 : b = 34
  · subst h7; decide
  by_cases h8 : b = 60
  · subst h8; decide
  by_cases h9 : b = 62
  · subst h9; decide
  by_cases h10 : b = 124
  · subst h10; decide
  simp [replaceByte, sanitize, unsafeBytes, h1, h2, h3, h4, h5, h6, h7, h8, h9, h10]

theorem sanitize_safe (b : Nat) : sanitize b ∉ unsafeBytes := by
  unfold sanitize
  split_ifs with h
  · decide
  · exact h

/-- The output title is the starting title with every unsafe byte replaced,
cut to its first 100 bytes. -/
theorem outputTitle_eq (si : StreamInfo) :
    outputTitle si = ((titleOrVideo si).map sanitize).take 100 := by
  have hstart : (if utf8.encode si.Title = [] then utf8.encode "video".toList
      else utf8.encode si.Title) = titleOrVideo si := by
    unfold titleOrVideo
    by_cases h : si.Title = []
    · simp [h, utf8.encode]
    · simp [h, utf8.encode_eq_nil]
  have hchain : ∀ t : Bytes,
      strings.ReplaceAll (strings.ReplaceAll (strings.ReplaceAll (strings.ReplaceAll
        (strings.ReplaceAll (strings.ReplaceAll (strings.ReplaceAll (strings.ReplaceAll
          (strings.ReplaceAll (strings.ReplaceAll t ' '.toNat [underscore]) '/'.toNat
            [underscore]) '\\'.toNat [underscore]) ':'.toNat [underscore]) '*'.toNat
              [underscore]) '?'.toNat [underscore]) '"'.toNat [underscore]) '<'.toNat
                [underscore]) '>'.toNat [underscore]) '|'.toNat [underscore] =
        t.map sanitize := by
    intro t
    simp only [ReplaceAll_byte, List.map_map]
    apply List.map_congr_left
    intro b _
    simp only [Function.comp_apply]
    exact sanitize_chain b
  unfold outputTitle
  simp only [hstart, hchain]
  split_ifs with h
  · rfl
  · rw [List.take_of_length_le (by omega)]

/-- C11 fails as stated: the title of 51 letters `é` has at most 100
characters and none of the replaced ones, so the claim leaves it as it is;
the code cuts it to its first 100 bytes, which are 50 letters, and so returns
another path. -/
theorem GenerateOutputFilename_cuts_bytes :
    sampleAccented.Title.length = 51 ∧
      (∀ c ∈ sampleAccented.Title, c.toNat ∉ unsafeBytes) ∧
      (utf8.encode sampleAccented.Title).length = 102 ∧
      outputTitle sampleAccented = utf8.encode (List.replicate 50 'é') ∧
      outputTitle sampleAccented ≠ utf8.encode sampleAccented.Title ∧
      GenerateOutputFilename filepath.JoinBytes sampleAccented (utf8.encode "/tmp".toList) ≠
        filepath.JoinBytes (utf8.encode "/tmp".toList)
          (utf8.encode sampleAccented.Title ++ utf8.encode ".mp4".toList) := by
  decide

/-- C11, amended: `GenerateOutputFilename` returns the path join of the
directory with base + `.mp4`, where base is the title (or `video` when the
title is empty) with every space, `/`, `\`, `:`, `*`, `?`, `"`, `<`, `>` and `|`
replaced by `_` and then cut to its first 100 bytes; an empty title gives the
join of the directory with `video.mp4`; a title of at most 100 bytes, and so
an ASCII title of at most 100 characters, is not shortened. -/
theorem GenerateOutputFilename_spec (Join : Bytes → Bytes → Bytes) (si : StreamInfo)
    (outputDir : Bytes) :
    GenerateOutputFilename Join si outputDir =
        Join outputDir
          (((if si.Title = [] then utf8.encode "video".toList
              else utf8.encode si.Title).map sanitize).take 100 ++
            utf8.encode ".mp4".toList) ∧
      (si.Title = [] →
        GenerateOutputFilename Join si outputDir =
          Join outputDir (utf8.encode "video.mp4".toList)) ∧
      ((utf8.encode si.Title).length ≤ 100 →
        outputTitle si = (titleOrVideo si).map sanitize) ∧
      ((∀ c ∈ si.Title, c.toNat < 0x80) → si.Title ≠ [] → si.Title.length ≤ 100 →
        outputTitle si = si.Title.map (fun c => sanitize c.toNat)) := by
  have heq := outputTitle_eq si
  refine ⟨?_, ?_, ?_, ?_⟩
  · unfold GenerateOutputFilename
    rw [heq]
    rfl
  · intro h
    unfold GenerateOutputFilename
    rw [heq]
    simp only [titleOrVideo, h, if_true]
    have hv : List.take 100 (List.map sanitize (utf8.encode "video".toList)) ++
        utf8.encode ".mp4".toList = utf8.encode "video.mp4".toList := by decide
    rw [hv]
  · intro h
    rw [heq]
    apply List.take_of_length_le
    rw [List.length_map]
    unfold titleOrVideo
    split_ifs
    · decide
    · exact h
  · intro hascii hne hlen
    rw [heq]
    have henc := utf8.encode_ascii si.Title hascii
    simp only [titleOrVideo, hne, if_false, henc, List.map_map]
    rw [List.take_of_length_le (by simpa using hlen)]
    rfl

theorem GenerateOutputFilename_spec_witness :
    GenerateOutputFilename filepath.JoinBytes
        { extractor.sampleStream with Title := "Test/Video:With*Special?Characters".toList }
        (utf8.encode "/tmp".toList) =
      utf8.encode "/tmp/Test_Video_With_Special_Characters.mp4".toList ∧
      GenerateOutputFilename filepath.JoinBytes extractor.sampleStream
        (utf8.encode "/tmp".toList) = utf8.encode "/tmp/video.mp4".toList :=
  ⟨by decide,
    ((GenerateOutputFilename_spec filepath.JoinBytes extractor.sampleStream
      (utf8.encode "/tmp".toList)).2.1 (by decide)).trans (by decide)⟩

/-- C12: the base name `GenerateOutputFilename` puts before `.mp4` has at most
100 bytes, hence at most 100 characters, and contains none of space, `/`, `\`,
`:`, `*`, `?`, `"`, `<`, `>`, `|`. -/
theorem outputTitle_bounded_and_safe (si : StreamInfo) :
    (outputTitle si).length ≤ 100 ∧
      utf8.RuneCountInString (outputTitle si) ≤ 100 ∧
      (∀ b ∈ outputTitle si, b ∉ unsafeBytes) ∧
      (∀ (Join : Bytes → Bytes → Bytes) (outputDir : Bytes),
        GenerateOutputFilename Join si outputDir =
          Join outputDir (outputTitle si ++ utf8.encode ".mp4".toList)) := by
  have hlen : (outputTitle si).length ≤ 100 := by
    rw [outputTitle_eq, List.length_take]
    exact Nat.min_le_left _ _
  refine ⟨hlen, Nat.le_trans (utf8.RuneCountInString_le _) hlen, ?_, fun _ _ => rfl⟩
  intro b hb
  rw [outputTitle_eq] at hb
  obtain ⟨a, -, rfl⟩ := List.mem_map.1 (List.mem_of_mem_take hb)
  exact sanitize_safe a

end merger

/-! ## Properties of the segments list -/

namespace merger

open models

/-- With every write going through, the loop appends one line per segment
whose file is found, in order. -/
theorem listLoop_ok (Join : Str → Str → Str) (stat : Str → Bool) (abs : Str → Option Str)
    (write : Nat → Option Str) (segmentsDir : Str) (hwrite : ∀ k, write k = none) :
    ∀ (segments : List Segment) (written : List Str),
      listLoop Join stat abs write segmentsDir segments written =
        (written ++
          (segments.filter (fun s => stat (Join segmentsDir s.Filename))).map
            (fun s => listLine ((abs (Join segmentsDir s.Filename)).getD
              (Join segmentsDir s.Filename))),
          none) := by
  intro segments
  induction segments with
  | nil => intro written; simp [listLoop]
  | cons s rest ih =>
    intro written
    by_cases hs : stat (Join segmentsDir s.Filename) = true
    · have hline : (match abs (Join segmentsDir s.Filename) with
          | none => Join segmentsDir s.Filename
          | some p => p) =
          (abs (Join segmentsDir s.Filename)).getD (Join segmentsDir s.Filename) := by
        cases abs (Join segmentsDir s.Filename) <;> rfl
      simp only [listLoop, hs, Bool.not_true, Bool.false_eq_true, if_false, hwrite, hline, ih,
        List.filter_cons_of_pos, List.map_cons, List.append_assoc, List.singleton_append]
    · simp only [Bool.not_eq_true] at hs
      simp only [listLoop, hs, Bool.not_false, if_true, ih, Bool.false_eq_true,
        not_false_eq_true, List.filter_cons_of_neg]

theorem ReplaceAll_absent {α : Type} [DecidableEq α] (s : List α) (old : α) (new : List α)
    (h : old ∉ s) : strings.ReplaceAll s old new = s := by
  induction s with
  | nil => rfl
  | cons c cs ih =>
    have hc : c ≠ old := fun hc => h (hc ▸ List.mem_cons_self _ _)
    have hcs := ih (fun hm => h (List.mem_cons_of_mem _ hm))
    unfold strings.ReplaceAll at hcs ⊢
    simp [List.flatMap_cons, hcs, hc]

/-- C16 fails as stated: the file of the segment `a.ts` in the directory
`/tmp/it's` exists and its absolute path is `/tmp/it's/a.ts`; the line written
for it is `file '/tmp/it'\''s/a.ts'`, with the apostrophe of the path escaped,
and not `file '/tmp/it's/a.ts'`. -/
theorem createSegmentsList_escapes_apostrophe :
    (createSegmentsList filepath.JoinStr (fun _ => none) (fun _ => true) (fun p => some p)
        (fun _ => none) true [sampleFile 0 "a.ts".toList] "/tmp/it's".toList
        "/tmp/it's/segments.txt".toList).err = none ∧
      (createSegmentsList filepath.JoinStr (fun _ => none) (fun _ => true) (fun p => some p)
        (fun _ => none) true [sampleFile 0 "a.ts".toList] "/tmp/it's".toList
        "/tmp/it's/segments.txt".toList).written = ["file '/tmp/it'\\''s/a.ts'\n".toList] ∧
      (createSegmentsList filepath.JoinStr (fun _ => none) (fun _ => true) (fun p => some p)
        (fun _ => none) true [sampleFile 0 "a.ts".toList] "/tmp/it's".toList
        "/tmp/it's/segments.txt".toList).written ≠ ["file '/tmp/it's/a.ts'\n".toList] := by
  decide

/-- C16, amended: when the list file can be created and written,
`createSegmentsList` returns nil and writes exactly one line per segment whose
file is found, in the order of the input list, skipping every segment whose
file is missing; the line is `file '<path>'` where `<path>` is the absolute
path of the segment file (the joined path when it cannot be made absolute)
with every apostrophe written as `'\''`, which is the path itself when it has
no apostrophe; when all files are found there is one line per segment. -/
theorem createSegmentsList_lines (Join : Str → Str → Str) (create : Str → Option Str)
    (stat : Str → Bool) (abs : Str → Option Str) (write : Nat → Option Str)
    (segments : List Segment) (segmentsDir listFile : Str)
    (hcreate : create listFile = none) (hwrite : ∀ k, write k = none) :
    (createSegmentsList Join create stat abs write true segments segmentsDir listFile).err =
        none ∧
      (createSegmentsList Join create stat abs write true segments segmentsDir
          listFile).written =
        (segments.filter (fun s => stat (Join segmentsDir s.Filename))).map
          (fun s => listLine ((abs (Join segmentsDir s.Filename)).getD
            (Join segmentsDir s.Filename))) ∧
      (createSegmentsList Join create stat abs write true segments segmentsDir listFile).file =
        some (createSegmentsList Join create stat abs write true segments segmentsDir
          listFile).written.flatten ∧
      ((∀ s ∈ segments, stat (Join segmentsDir s.Filename) = true) →
        (createSegmentsList Join create stat abs write true segments segmentsDir
            listFile).written =
          segments.map (fun s => listLine ((abs (Join segmentsDir s.Filename)).getD
            (Join segmentsDir s.Filename)))) ∧
      (∀ path : Str, apostrophe ∉ path →
        listLine path = "file ".toList ++ apostrophe :: (path ++ [apostrophe, '\n'])) := by
  have hloop := listLoop_ok Join stat abs write segmentsDir hwrite segments []
  have hrun : createSegmentsList Join create stat abs write true segments segmentsDir listFile =
      { written := (segments.filter (fun s => stat (Join segmentsDir s.Filename))).map
          (fun s => listLine ((abs (Join segmentsDir s.Filename)).getD
            (Join segmentsDir s.Filename)))
        file := some ((segments.filter (fun s => stat (Join segmentsDir s.Filename))).map
          (fun s => listLine ((abs (Join segmentsDir s.Filename)).getD
            (Join segmentsDir s.Filename)))).flatten
        err := none } := by
    simp [createSegmentsList, hcreate, hloop]
  rw [hrun]
  refine ⟨rfl, rfl, rfl, ?_, ?_⟩
  · intro hall
    show List.map _ (List.filter _ segments) = _
    rw [List.filter_eq_self.2 hall]
  · intro path hpath
    unfold listLine
    rw [ReplaceAll_absent path apostrophe _ hpath]

theorem createSegmentsList_lines_witness :
    (createSegmentsList filepath.JoinStr (fun _ => none)
        (fun p => decide (p ≠ "/tmp/x/segment_0001.ts".toList)) (fun p => some p)
        (fun _ => none) true
        [sampleFile 0 "segment_0000.ts".toList, sampleFile 1 "segment_0001.ts".toList,
          sampleFile 2 "segment_0002.ts".toList]
        "/tmp/x".toList "/tmp/x/segments.txt".toList).written =
      ["file '/tmp/x/segment_0000.ts'\n".toList, "file '/tmp/x/segment_0002.ts'\n".toList] :=
  ((createSegmentsList_lines filepath.JoinStr (fun _ => none)
      (fun p => decide (p ≠ "/tmp/x/segment_0001.ts".toList)) (fun p => some p)
      (fun _ => none)
      [sampleFile 0 "segment_0000.ts".toList, sampleFile 1 "segment_0001.ts".toList,
        sampleFile 2 "segment_0002.ts".toList]
      "/tmp/x".toList "/tmp/x/segments.txt".toList rfl (fun _ => rfl)).2.1).trans (by decide)

end merger

/-! ## Properties of `findManifestURL` -/

namespace regexp

theorem contains_spec (sub : Str) : ∀ s : Str, strings.Contains s sub = true ↔ sub <:+: s := by
  intro s
  induction s with
  | nil => simp [strings.Contains, List.isPrefixOf_iff_prefix]
  | cons c cs ih =>
    simp only [strings.Contains, Bool.or_eq_true, List.isPrefixOf_iff_prefix, ih,
      List.infix_cons_iff]

/-- A list splits at the first element that fails the test. -/
theorem takeWhile_dropWhile_split {α : Type} (p : α → Bool) :
    ∀ (u : List α) (x : α) (rest : List α), (∀ c ∈ u, p c = true) → p x = false →
      (u ++ x :: rest).takeWhile p = u ∧ (u ++ x :: rest).dropWhile p = x :: rest := by
  intro u
  induction u with
  | nil => intro x rest _ hx; simp [List.takeWhile, List.dropWhile, hx]
  | cons c cs ih =>
    intro x rest hall hx
    have hc := hall c (List.mem_cons_self _ _)
    obtain ⟨h1, h2⟩ := ih x rest (fun y hy => hall y (List.mem_cons_of_mem _ hy)) hx
    simp [List.takeWhile, List.dropWhile, hc, h1, h2]

theorem dropWhile_head {α : Type} (p : α → Bool) :
    ∀ (s : List α) (x : α) (rest : List α), s.dropWhile p = x :: rest → p x = false := by
  intro s
  induction s with
  | nil => intro x rest h; simp at h
  | cons c cs ih =>
    intro x rest h
    by_cases hc : p c = true
    · rw [List.dropWhile_cons_of_pos hc] at h
      exact ih x rest h
    · rw [List.dropWhile_cons_of_neg hc] at h
      cases h
      simpa using hc

theorem hasPrefix_iff (s pre : Str) :
    strings.HasPrefix s pre = true ↔ ∃ rest, s = pre ++ rest := by
  simp only [strings.HasPrefix, List.isPrefixOf_iff_prefix]
  constructor
  · rintro ⟨t, ht⟩; exact ⟨t, ht.symm⟩
  · rintro ⟨t, ht⟩; exact ⟨t, ht.symm⟩

theorem not_https_of_http (rest : Str) :
    strings.HasPrefix (httpScheme ++ rest) httpsScheme = false := by
  simp [strings.HasPrefix, httpScheme, httpsScheme, List.isPrefixOf]

/-- What it takes for the group to match at the start of `s`, and what it
captures. -/
theorem matchGroup_eq_some (marker s u : Str) :
    matchGroup marker s = some u ↔
      ∃ (q' : Char) (after rest : Str), s = u ++ q' :: after ∧ isQuote q' = true ∧
        (∀ c ∈ u, isQuote c = false) ∧
        (u = httpScheme ++ rest ∨ u = httpsScheme ++ rest) ∧ marker <:+: rest := by
  constructor
  · intro h
    unfold matchGroup at h
    simp only at h
    cases hdrop : s.dropWhile (fun c => !isQuote c) with
    | nil => simp [hdrop] at h
    | cons q' after =>
      have hq : isQuote q' = true := by
        have := dropWhile_head _ s q' after hdrop
        simpa using this
      have hsplit : s = s.takeWhile (fun c => !isQuote c) ++ q' :: after := by
        rw [← hdrop, List.takeWhile_append_dropWhile]
      have hall : ∀ c ∈ s.takeWhile (fun c => !isQuote c), isQuote c = false := by
        intro c hc
        have := List.mem_takeWhile_imp hc
        simpa using this
      simp only [hdrop, reduceCtorEq, if_false] at h
      by_cases h1 : strings.HasPrefix (s.takeWhile (fun c => !isQuote c)) httpsScheme = true
      · simp only [h1, if_true] at h
        obtain ⟨rest, hrest⟩ := (hasPrefix_iff _ _).1 h1
        have hd : (s.takeWhile (fun c => !isQuote c)).drop httpsScheme.length = rest := by
          rw [hrest, List.drop_left]
        rw [hd] at h
        by_cases hc : strings.Contains rest marker = true
        · simp only [hc, if_true, Option.some.injEq] at h
          subst h
          exact ⟨q', after, rest, hsplit, hq, hall, Or.inr hrest, (contains_spec _ _).1 hc⟩
        · simp [hc] at h
      · simp only [h1, Bool.false_eq_true, if_false] at h
        by_cases h2 : strings.HasPrefix (s.takeWhile (fun c => !isQuote c)) httpScheme = true
        · simp only [h2, if_true] at h
          obtain ⟨rest, hrest⟩ := (hasPrefix_iff _ _).1 h2
          have hd : (s.takeWhile (fun c => !isQuote c)).drop httpScheme.length = rest := by
            rw [hrest, List.drop_left]
          rw [hd] at h
          by_cases hc : strings.Contains rest marker = true
          · simp only [hc, if_true, Option.some.injEq] at h
            subst h
            exact ⟨q', after, rest, hsplit, hq, hall, Or.inl hrest, (contains_spec _ _).1 hc⟩
          · simp [hc] at h
        · simp [h2] at h
  · rintro ⟨q', after, rest, hs, hq, hall, hscheme, hmark⟩
    obtain ⟨ht, hd⟩ := takeWhile_dropWhile_split (fun c => !isQuote c) u q' after
      (fun c hc => by simp [hall c hc]) (by simp [hq])
    rw [← hs] at ht hd
    have hc := (contains_spec marker rest).2 hmark
    unfold matchGroup
    simp only [ht, hd, reduceCtorEq, if_false]
    rcases hscheme with hu | hu
    · have h1 : strings.HasPrefix u httpsScheme = false := by rw [hu]; exact not_https_of_http rest
      have h2 : strings.HasPrefix u httpScheme = true := (hasPrefix_iff _ _).2 ⟨rest, hu⟩
      have hdr : u.drop httpScheme.length = rest := by rw [hu, List.drop_left]
      simp [h1, h2, hdr, hc]
    · have h1 : strings.HasPrefix u httpsScheme = true := (hasPrefix_iff _ _).2 ⟨rest, hu⟩
      have hdr : u.drop httpsScheme.length = rest := by rw [hu, List.drop_left]
      simp [h1, hdr, hc]

/-- The pattern matches nowhere exactly when it matches at the start of no
suffix. -/
theorem FindStringSubmatch_eq_none (p : Pattern) :
    ∀ s : Str, FindStringSubmatch p s = none ↔
      ∀ before rest : Str, s = before ++ rest → matchHere p rest = none := by
  intro s
  induction s with
  | nil =>
    simp only [FindStringSubmatch]
    constructor
    · intro h before rest hs
      have : rest = [] := (List.append_eq_nil.1 hs.symm).2
      rw [this]; exact h
    · intro h; exact h [] [] rfl
  | cons c cs ih =>
    simp only [FindStringSubmatch]
    cases hm : matchHere p (c :: cs) with
    | some g =>
      simp only [reduceCtorEq, false_iff]
      intro h
      have := h [] (c :: cs) rfl
      rw [hm] at this; cases this
    | none =>
      simp only
      rw [ih]
      constructor
      · intro h before rest hs
        cases before with
        | nil => simp only [List.nil_append] at hs; rw [← hs]; exact hm
        | cons b bs =>
          simp only [List.cons_append, List.cons.injEq] at hs
          exact h bs rest hs.2
      · intro h before rest hs
        exact h (c :: before) rest (by rw [hs]; rfl)

/-- The group found is the one of the leftmost match. -/
theorem FindStringSubmatch_eq_some (p : Pattern) (u : Str) :
    ∀ s : Str, FindStringSubmatch p s = some u →
      ∃ before rest : Str, s = before ++ rest ∧ matchHere p rest = some u ∧
        ∀ before' rest' : Str, s = before' ++ rest' → before'.length < before.length →
          matchHere p rest' = none := by
  intro s
  induction s with
  | nil =>
    intro h
    simp only [FindStringSubmatch] at h
    exact ⟨[], [], rfl, h, fun _ _ _ hlt => by simp at hlt⟩
  | cons c cs ih =>
    intro h
    simp only [FindStringSubmatch] at h
    cases hm : matchHere p (c :: cs) with
    | some g =>
      simp only [hm, Option.some.injEq] at h
      subst h
      exact ⟨[], c :: cs, rfl, hm, fun _ _ _ hlt => by simp at hlt⟩
    | none =>
      simp only [hm] at h
      obtain ⟨before, rest, hs, hr, hleft⟩ := ih h
      refine ⟨c :: before, rest, by rw [hs]; rfl, hr, ?_⟩
      intro before' rest' hs' hlt
      cases before' with
      | nil => simp only [List.nil_append] at hs'; rw [← hs']; exact hm
      | cons b bs =>
        simp only [List.cons_append, List.cons.injEq] at hs'
        exact hleft bs rest' hs'.2 (by simpa using hlt)

/-- A match at the start of `s` consists of the keyword and blanks, if the
pattern has a keyword, an opening quote, and the group. -/
theorem matchHere_eq_some (p : Pattern) (s u : Str) (h : matchHere p s = some u) :
    ∃ (lead : Str) (q : Char) (rest : Str), s = lead ++ q :: rest ∧ isQuote q = true ∧
      (p.keyword = none → lead = []) ∧ matchGroup p.marker rest = some u := by
  unfold matchHere at h
  cases hk : p.keyword with
  | none =>
    simp only [hk] at h
    cases s with
    | nil => simp at h
    | cons q rest =>
      simp only at h
      by_cases hq : isQuote q = true
      · simp only [hq, if_true] at h
        exact ⟨[], q, rest, rfl, hq, fun _ => rfl, h⟩
      · simp [hq] at h
  | some k =>
    simp only [hk] at h
    by_cases hp : strings.HasPrefix s k = true
    · simp only [hp, if_true] at h
      obtain ⟨s', hs'⟩ := (hasPrefix_iff s k).1 hp
      have hd : s.drop k.length = s' := by rw [hs', List.drop_left]
      rw [hd] at h
      cases hdw : s'.dropWhile isBlank with
      | nil => simp [hdw] at h
      | cons q rest =>
        simp only [hdw] at h
        by_cases hq : isQuote q = true
        · simp only [hq, if_true] at h
          refine ⟨k ++ s'.takeWhile isBlank, q, rest, ?_, hq, fun hn => by simp at hn, h⟩
          rw [hs', List.append_assoc, ← hdw, List.takeWhile_append_dropWhile]
        · simp [hq] at h
    · simp [hp] at h

theorem matchHere_of_group (marker : Str) (q : Char) (rest u : Str) (hq : isQuote q = true)
    (h : matchGroup marker rest = some u) :
    matchHere { keyword := none, marker := marker } (q :: rest) = some u := by
  simp [matchHere, hq, h]

/-- The group of a match starts with `http`. -/
theorem matchGroup_http (marker s u : Str) (h : matchGroup marker s = some u) :
    strings.HasPrefix u extractor.httpMark = true := by
  obtain ⟨q', after, rest, -, -, -, hscheme, -⟩ := (matchGroup_eq_some marker s u).1 h
  rcases hscheme with hu | hu <;>
    · rw [hu]
      simp [strings.HasPrefix, httpScheme, httpsScheme, extractor.httpMark, List.isPrefixOf]

/-- A match of the group with a marker is a match with any part of it. -/
theorem matchGroup_weaken (marker marker' s u : Str) (hm : marker' <:+: marker)
    (h : matchGroup marker s = some u) : matchGroup marker' s = some u := by
  obtain ⟨q', after, rest, h1, h2, h3, h4, h5⟩ := (matchGroup_eq_some marker s u).1 h
  exact (matchGroup_eq_some marker' s u).2 ⟨q', after, rest, h1, h2, h3, h4, hm.trans h5⟩

end regexp

namespace extractor

open regexp

/-- The second pattern, `['"](https?://[^'"]*m3u8[^'"]*?)['"]`. -/
theorem weakest_mem : ({ keyword := none, marker := m3u8 } : Pattern) ∈ patterns := by
  simp [patterns]

theorem patterns_marker : ∀ p ∈ patterns, m3u8 <:+: p.marker := by
  have hdot : m3u8 <:+: dotM3u8 := ⟨['.'], [], rfl⟩
  intro p hp
  simp only [patterns, List.mem_cons, List.mem_singleton, List.not_mem_nil, or_false] at hp
  rcases hp with rfl | rfl | rfl | rfl | rfl | rfl
  · exact hdot
  · exact List.infix_refl _
  · exact hdot
  · exact hdot
  · exact hdot
  · exact hdot

/-- The group a pattern finds starts with `http`. -/
theorem found_http (p : Pattern) (content u : Str) (h : FindStringSubmatch p content = some u) :
    strings.HasPrefix u httpMark = true := by
  obtain ⟨before, rest, -, hm, -⟩ := FindStringSubmatch_eq_some p u content h
  obtain ⟨lead, q, rest', -, -, -, hg⟩ := matchHere_eq_some p rest u hm
  exact matchGroup_http p.marker rest' u hg

/-- Whenever one of the patterns matches, the second one does. -/
theorem weakest_matches (content : Str) (p : Pattern) (hp : p ∈ patterns)
    (h : FindStringSubmatch p content ≠ none) :
    FindStringSubmatch { keyword := none, marker := m3u8 } content ≠ none := by
  cases hf : FindStringSubmatch p content with
  | none => exact absurd hf h
  | some u =>
    obtain ⟨before, rest, hs, hm, -⟩ := FindStringSubmatch_eq_some p u content hf
    obtain ⟨lead, q, rest', hr, hq, -, hg⟩ := matchHere_eq_some p rest u hm
    have hg' := matchGroup_weaken p.marker m3u8 rest' u (patterns_marker p hp) hg
    have hm' := matchHere_of_group m3u8 q rest' u hq hg'
    intro hnone
    have := (FindStringSubmatch_eq_none _ content).1 hnone (before ++ lead) (q :: rest')
      (by rw [hs, hr, List.append_assoc])
    rw [hm'] at this
    cases this

/-- The second pattern matches exactly when the content holds a quoted URL
with `m3u8` in it. -/
theorem weakest_iff_quoted (content : Str) :
    FindStringSubmatch { keyword := none, marker := m3u8 } content ≠ none ↔
      HasQuotedManifest content := by
  constructor
  · intro h
    cases hf : FindStringSubmatch { keyword := none, marker := m3u8 } content with
    | none => exact absurd hf h
    | some u =>
      obtain ⟨before, rest, hs, hm, -⟩ := FindStringSubmatch_eq_some _ u content hf
      obtain ⟨lead, q, rest', hr, hq, hlead, hg⟩ := matchHere_eq_some _ rest u hm
      have hl : lead = [] := hlead rfl
      obtain ⟨q', after, tail, h1, h2, h3, h4, h5⟩ := (matchGroup_eq_some m3u8 rest' u).1 hg
      refine ⟨before, q, tail, u, q', after, ?_, hq, h2, h3, h4, h5⟩
      rw [hs, hr, hl, h1]
      rfl
  · rintro ⟨before, q, tail, between, q', after, hs, hq, hq', hall, hscheme, hmark⟩
    have hg : matchGroup m3u8 (between ++ q' :: after) = some between :=
      (matchGroup_eq_some m3u8 _ between).2 ⟨q', after, tail, rfl, hq', hall, hscheme, hmark⟩
    have hm := matchHere_of_group m3u8 q _ between hq hg
    intro hnone
    have := (FindStringSubmatch_eq_none _ content).1 hnone before _ hs
    rw [hm] at this
    cases this

/-- The loop returns the group of the first pattern of the list that matches,
and the error when none matches. -/
theorem findLoop_spec (Resolve : Str → Str → Option Str) (content baseURL : Str) :
    ∀ ps : List Pattern,
      ((∀ p ∈ ps, FindStringSubmatch p content = none) →
        findLoop Resolve content baseURL ps = ([], some errNoManifestURL)) ∧
      ((∃ p ∈ ps, FindStringSubmatch p content ≠ none) →
        ∃ (i : Nat) (p : Pattern) (u : Str), ps[i]? = some p ∧
          FindStringSubmatch p content = some u ∧
          (∀ (j : Nat) (p' : Pattern), j < i → ps[j]? = some p' →
            FindStringSubmatch p' content = none) ∧
          findLoop Resolve content baseURL ps = (u, none)) := by
  intro ps
  induction ps with
  | nil =>
    refine ⟨fun _ => rfl, ?_⟩
    rintro ⟨p, hp, -⟩
    simp at hp
  | cons p rest ih =>
    obtain ⟨ih1, ih2⟩ := ih
    constructor
    · intro hall
      have hp := hall p (List.mem_cons_self _ _)
      simp only [findLoop, hp]
      exact ih1 (fun x hx => hall x (List.mem_cons_of_mem _ hx))
    · rintro ⟨x, hx, hne⟩
      cases hf : FindStringSubmatch p content with
      | some u =>
        refine ⟨0, p, u, by simp, hf, fun j _ hj => by omega, ?_⟩
        simp only [findLoop, hf, found_http p content u hf, if_true]
      | none =>
        have hx' : x ∈ rest := by
          rcases List.mem_cons.1 hx with rfl | hx'
          · exact absurd hf hne
          · exact hx'
        obtain ⟨i, q, u, hi, hq, hbefore, hres⟩ := ih2 ⟨x, hx', hne⟩
        refine ⟨i + 1, q, u, by simpa using hi, hq, ?_, ?_⟩
        · intro j p' hj hp'
          cases j with
          | zero =>
            simp only [List.getElem?_cons_zero, Option.some.injEq] at hp'
            rw [← hp']; exact hf
          | succ j =>
            exact hbefore j p' (by omega) (by simpa using hp')
        · simp only [findLoop, hf]
          exact hres

/-- C13: `findManifestURL` returns an error exactly when none of its patterns
matches, which is when the content holds no quote character followed by
`http://` or `https://`, text without quotes that contains `m3u8`, and a
closing quote. When a pattern matches, the result is the group of the first
pattern in list order that matches, with no error; that group is the one of
the leftmost match of the pattern and is the text between the two quotes of
that match, as it stands in the content. -/
theorem findManifestURL_first_match (Resolve : Str → Str → Option Str)
    (content baseURL : Str) :
    ((findManifestURL Resolve content baseURL).2 ≠ none ↔
        ∀ p ∈ patterns, FindStringSubmatch p content = none) ∧
      ((findManifestURL Resolve content baseURL).2 ≠ none ↔ ¬ HasQuotedManifest content) ∧
      ((∃ p ∈ patterns, FindStringSubmatch p content ≠ none) →
        ∃ (i : Nat) (p : Pattern) (u : Str), patterns[i]? = some p ∧
          FindStringSubmatch p content = some u ∧
          (∀ (j : Nat) (p' : Pattern), j < i → patterns[j]? = some p' →
            FindStringSubmatch p' content = none) ∧
          findManifestURL Resolve content baseURL = (u, none)) ∧
      (∀ (p : Pattern) (u : Str), FindStringSubmatch p content = some u →
        ∃ (before lead : Str) (q : Char) (q' : Char) (after : Str),
          content = before ++ (lead ++ q :: (u ++ q' :: after)) ∧
            isQuote q = true ∧ isQuote q' = true ∧ (∀ c ∈ u, isQuote c = false) ∧
            matchHere p (lead ++ q :: (u ++ q' :: after)) = some u ∧
            ∀ before' rest' : Str, content = before' ++ rest' →
              before'.length < before.length → matchHere p rest' = none) := by
  obtain ⟨hnone, hsome⟩ := findLoop_spec Resolve content baseURL patterns
  have h1 : (findManifestURL Resolve content baseURL).2 ≠ none ↔
      ∀ p ∈ patterns, FindStringSubmatch p content = none := by
    constructor
    · intro herr p hp
      by_contra hne
      obtain ⟨i, q, u, -, -, -, hres⟩ := hsome ⟨p, hp, hne⟩
      unfold findManifestURL at herr
      rw [hres] at herr
      exact herr rfl
    · intro hall
      unfold findManifestURL
      rw [hnone hall]
      simp
  refine ⟨h1, ?_, hsome, ?_⟩
  · rw [h1, ← weakest_iff_quoted]
    constructor
    · intro hall
      simp [hall _ weakest_mem]
    · intro hw p hp
      by_contra hne
      exact hw (weakest_matches content p hp hne)
  · intro p u hf
    obtain ⟨before, rest, hs, hm, hleft⟩ := FindStringSubmatch_eq_some p u content hf
    obtain ⟨lead, q, rest', hr, hq, -, hg⟩ := matchHere_eq_some p rest u hm
    obtain ⟨q', after, tail, hr', hq', hall, -, -⟩ := (matchGroup_eq_some p.marker rest' u).1 hg
    refine ⟨before, lead, q, q', after, ?_, hq, hq', hall, ?_, hleft⟩
    · rw [hs, hr, hr']
    · rw [← hr', ← hr]; exact hm

theorem findManifestURL_first_match_witness :
    findManifestURL (fun _ _ => none)
        "<script>var videoUrl = \"https://example.com/video.m3u8\";</script>".toList
        "https://example.com".toList =
      ("https://example.com/video.m3u8".toList, none) ∧
      (findManifestURL (fun _ _ => none)
        "<div>Some random content without manifest URL</div>".toList
        "https://example.com".toList).2 ≠ none :=
  ⟨by decide,
    (findManifestURL_first_match (fun _ _ => none)
      "<div>Some random content without manifest URL</div>".toList
      "https://example.com".toList).1.2 (by decide)⟩

end extractor

/-! ## `getBaseURL` on a URL that ends in `?` -/

namespace extractor

/-- C14, evaluated: on the manifest URL of the claim, with a query,
`getBaseURL` gives `https://example.com/video/subdir/`. On
`https://example.com/video/playlist.m3u8?`, whose query is empty, `url.Parse`
sets `ForceQuery`, `getBaseURL` clears `RawQuery` and `Fragment` only, and the
result is `https://example.com/video/?`: the `?` is still there and the result
does not end with `/`. `findManifestURL` can hand over such a URL. -/
theorem getBaseURL_keeps_forced_query :
    getBaseURL url.Parse url.URL.String
        "https://example.com/video/subdir/playlist.m3u8?token=123".toList =
      "https://example.com/video/subdir/".toList ∧
      url.Parse "https://example.com/video/playlist.m3u8?".toList =
        some { Scheme := "https".toList, Host := "example.com".toList
               Path := "/video/playlist.m3u8".toList, ForceQuery := true
               RawQuery := [], Fragment := [] } ∧
      getBaseURL url.Parse url.URL.String "https://example.com/video/playlist.m3u8?".toList =
        "https://example.com/video/?".toList ∧
      (getBaseURL url.Parse url.URL.String
        "https://example.com/video/playlist.m3u8?".toList).getLast? ≠ some '/' ∧
      findManifestURL (fun _ _ => none)
          "src: \"https://example.com/video/playlist.m3u8?\"".toList [] =
        ("https://example.com/video/playlist.m3u8?".toList, none) := by
  decide

end extractor

end StreamSnatchet
